import Mathlib

/-!
# AVLOptimized: a shallow embedding of `DataStructures/Trees/AVL/AVLOptimized/AVLOptimized.h`

The C++ class `Tree` keeps a pointer `root` to a heap of `Node`s.  Every node is
owned by exactly one parent link, so a `Node *` is modelled by a value of the
inductive type `Tree.Node`: `Node.null` is `nullptr`, `Node.mk` is a pointer to
an allocated node with its four fields in declaration order.

Reading a field through `nullptr` is undefined behaviour in the source; the
embedding makes every such read explicit by returning `none`.  The member
functions therefore return `Option`.

`int` values are only compared and copied, so they are modelled by `Int`.
`int` balances are incremented, decremented and negated; every tree that the
public interface can build stores balances between `-2` and `2`, far from the
limits of `int`, so they are modelled by `Int` as well.

`delete` is not modelled: a node that is unlinked simply no longer occurs in
the result.
-/

namespace AVLOptimized

namespace Tree

/-- A `Node *` of the source: `null` is `nullptr`, `mk left value right balance`
points to a node with these fields. -/
inductive Node where
  | null : Node
  | mk (left : Node) (value : Int) (right : Node) (balance : Int) : Node
deriving DecidableEq

namespace Node

/-- The freshly allocated node `new Node(val)`: no children, balance 0. -/
def new (val : Int) : Node := mk null val null 0

/-- The test `nullptr == p`. -/
def isNull : Node → Bool
  | null => true
  | mk _ _ _ _ => false

end Node

open Node

/-! ## The four rotations -/

/-- Source `rotateLL`: `child = current->right`, `current->right = child->left`,
`child->left = current`, `child->balance = child->balance - 1`,
`current->balance = -child->balance`, return `child`. -/
def rotateLL : Node → Option Node
  | mk l v (mk cl cv cr cb) _ => some (mk (mk l v cl (-(cb - 1))) cv cr (cb - 1))
  | _ => none

/-- Source `rotateRL`: `child = current->right`, `grandchild = child->left`,
`child->left = grandchild->right`, `current->right = grandchild->left`,
`grandchild->left = current`, `grandchild->right = child`,
`current->balance = -min(grandchild->balance, 0)`,
`child->balance = -max(grandchild->balance, 0)`, `grandchild->balance = 0`. -/
def rotateRL : Node → Option Node
  | mk l v (mk (mk gl gv gr gb) cv cr _) _ =>
      some (mk (mk l v gl (-(min gb 0))) gv (mk gr cv cr (-(max gb 0))) 0)
  | _ => none

/-- Source `rotateRR`: `child = current->left`, `current->left = child->right`,
`child->right = current`, `child->balance = child->balance + 1`,
`current->balance = -child->balance`, return `child`. -/
def rotateRR : Node → Option Node
  | mk (mk cl cv cr cb) v r _ => some (mk cl cv (mk cr v r (-(cb + 1))) (cb + 1))
  | _ => none

/-- Source `rotateLR`: `child = current->left`, `grandchild = child->right`,
`child->right = grandchild->left`, `current->left = grandchild->right`,
`grandchild->left = child`, `grandchild->right = current`,
`current->balance = -max(grandchild->balance, 0)`,
`child->balance = -min(grandchild->balance, 0)`, `grandchild->balance = 0`. -/
def rotateLR : Node → Option Node
  | mk (mk cl cv (mk gl gv gr gb) _) v r _ =>
      some (mk (mk cl cv gl (-(min gb 0))) gv (mk gr v r (-(max gb 0))) 0)
  | _ => none

/-- Source `rebalance`: a null node is returned as is; balance `+2` reads
`current->right->balance` and rotates LL or RL; balance `-2` reads
`current->left->balance` and rotates RR or LR; any other balance leaves the
node alone. -/
def rebalance : Node → Option Node
  | null => some null
  | mk l v r b =>
    if b = 2 then
      match r with
      | null => none
      | mk _ _ _ rb => if rb ≥ 0 then rotateLL (mk l v r b) else rotateRL (mk l v r b)
    else if b = -2 then
      match l with
      | null => none
      | mk _ _ _ lb => if lb ≤ 0 then rotateRR (mk l v r b) else rotateLR (mk l v r b)
    else some (mk l v r b)

/-! ## Insertion -/

/-- The tail of `addNode`: `current = rebalance(current)`, then
`if (0 == current->balance) heightIncreased = false`. -/
def addFinish (current : Node) (heightIncreased : Bool) : Option (Node × Bool) :=
  match rebalance current with
  | none => none
  | some null => none
  | some (mk l v r b) => some (mk l v r b, if b = 0 then false else heightIncreased)

/-- Source `addNode`.  The reference parameter `heightIncreased` is threaded
through: it is an argument and the second component of the result. -/
def addNode : Node → Int → Bool → Option (Node × Bool)
  | null, valToAdd, _ => some (Node.new valToAdd, true)
  | mk left value right balance, valToAdd, heightIncreased =>
    if valToAdd > value then
      match addNode right valToAdd heightIncreased with
      | none => none
      | some (r, h) => addFinish (mk left value r (if h then balance + 1 else balance)) h
    else if valToAdd < value then
      match addNode left valToAdd heightIncreased with
      | none => none
      | some (l, h) => addFinish (mk l value right (if h then balance - 1 else balance)) h
    else addFinish (mk left value right balance) heightIncreased

/-! ## Deletion -/

/-- The successor search of `removeNode`, started at `current->right`:
`while (successor->left != nullptr) successor = successor->left`. -/
def leftmost : Node → Node
  | mk (mk ll lv lr lb) _ _ _ => leftmost (mk ll lv lr lb)
  | n => n

/-- The read `successor->value`. -/
def valueOf : Node → Option Int
  | null => none
  | mk _ v _ _ => some v

/-- The bookkeeping after the right subtree was handed back by the recursive
call: `if (heightDecreased) { current->balance--; if (current->balance != 0)
heightDecreased = false; }`, then `current = rebalance(current)`. -/
def shrunkRight (left : Node) (value : Int) (r : Node) (balance : Int) (h : Bool) :
    Option (Node × Bool) :=
  let b := if h then balance - 1 else balance
  let h2 := if h then (if b ≠ 0 then false else h) else h
  match rebalance (mk left value r b) with
  | none => none
  | some c => some (c, h2)

/-- The bookkeeping after the left subtree was handed back by the recursive
call: `if (heightDecreased) { current->balance++; if (current->balance != 0)
heightDecreased = false; }`, then `current = rebalance(current)`. -/
def shrunkLeft (l : Node) (value : Int) (right : Node) (balance : Int) (h : Bool) :
    Option (Node × Bool) :=
  let b := if h then balance + 1 else balance
  let h2 := if h then (if b ≠ 0 then false else h) else h
  match rebalance (mk l value right b) with
  | none => none
  | some c => some (c, h2)

/-- Source `removeNode`.  The reference parameter `heightDecreased` is threaded
through like `heightIncreased` in `addNode`. -/
def removeNode : Node → Int → Bool → Option (Node × Bool)
  | null, _, _ => some (null, false)
  | mk left value right balance, valToRemove, heightDecreased =>
    if valToRemove > value then
      match removeNode right valToRemove heightDecreased with
      | none => none
      | some (r, h) => shrunkRight left value r balance h
    else if valToRemove < value then
      match removeNode left valToRemove heightDecreased with
      | none => none
      | some (l, h) => shrunkLeft l value right balance h
    else if left.isNull && right.isNull then some (null, true)
    else if !left.isNull && right.isNull then some (left, true)
    else if left.isNull && !right.isNull then some (right, true)
    else
      match valueOf (leftmost right) with
      | none => none
      | some succ =>
        match removeNode right succ heightDecreased with
        | none => none
        | some (r, h) => shrunkRight left succ r balance h

/-! ## Traversal -/

/-- Source `inorderAscending`: the values written to `cout`, one per line, as a
list. -/
def inorderAscending : Node → List Int
  | null => []
  | mk l v r _ => inorderAscending l ++ v :: inorderAscending r

end Tree

/-- The class `Tree`: its only data member is `root`. -/
structure Tree where
  root : Tree.Node
deriving DecidableEq

namespace Tree

open Node

/-- A default-constructed `Tree`: `root = nullptr`. -/
def empty : Tree := ⟨null⟩

/-- Source `add`: `heightIncreased = false; root = addNode(root, valToAdd,
heightIncreased)`. -/
def add (t : Tree) (valToAdd : Int) : Option Tree :=
  match addNode t.root valToAdd false with
  | none => none
  | some (r, _) => some ⟨r⟩

/-- Source `remove`: `heightDecreased = false; root = removeNode(root,
valToRemove, heightDecreased)`. -/
def remove (t : Tree) (valToRemove : Int) : Option Tree :=
  match removeNode t.root valToRemove false with
  | none => none
  | some (r, _) => some ⟨r⟩

/-- Source `printAscending`. -/
def printAscending (t : Tree) : List Int := inorderAscending t.root

end Tree

/-! ## Sequences of public calls -/

/-- One call of the public interface. -/
inductive Op where
  | add (v : Int) : Op
  | remove (v : Int) : Op
deriving DecidableEq

namespace Tree

open Node

/-- Perform one public call. -/
def apply (t : Tree) : Op → Option Tree
  | Op.add v => t.add v
  | Op.remove v => t.remove v

/-- Perform the calls of a list in order, starting from `t`; `none` as soon as
one of them reads through a null link. -/
def runFrom : Tree → List Op → Option Tree
  | t, [] => some t
  | t, op :: ops =>
    match t.apply op with
    | none => none
    | some t2 => runFrom t2 ops

/-- Perform the calls of a list in order on the empty tree. -/
def run (ops : List Op) : Option Tree := runFrom empty ops

/-- Call `add` on every element of a list in order. -/
def addAll : Tree → List Int → Option Tree
  | t, [] => some t
  | t, x :: xs =>
    match t.add x with
    | none => none
    | some t2 => addAll t2 xs

/-- Call `remove` on every element of a list in order. -/
def removeAll : Tree → List Int → Option Tree
  | t, [] => some t
  | t, x :: xs =>
    match t.remove x with
    | none => none
    | some t2 => removeAll t2 xs

/-! ## The vocabulary of the specification -/

/-- The height of a subtree, recomputed from its shape (the stored balances
are ignored): the number of nodes on a longest path to a null link. -/
def height : Node → Nat
  | Node.null => 0
  | Node.mk l _ r _ => max (height l) (height r) + 1

/-- BST order: at every node all values of the left subtree are strictly
smaller and all values of the right subtree strictly larger than its value. -/
def bstOrdered : Node → Prop
  | Node.null => True
  | Node.mk l v r _ =>
    (∀ x ∈ inorderAscending l, x < v) ∧ (∀ x ∈ inorderAscending r, v < x) ∧
      bstOrdered l ∧ bstOrdered r

/-- Every stored balance equals the recomputed right height minus the
recomputed left height. -/
def balanceExact : Node → Prop
  | Node.null => True
  | Node.mk l _ r b => b = (height r : Int) - (height l : Int) ∧ balanceExact l ∧ balanceExact r

/-- Every stored balance lies in `{-1, 0, 1}`. -/
def balancesSettled : Node → Prop
  | Node.null => True
  | Node.mk l _ r b => (-1 ≤ b ∧ b ≤ 1) ∧ balancesSettled l ∧ balancesSettled r

/-- The AVL property on the shape: at every node the recomputed heights of the
two subtrees differ by at most one. -/
def heightBalanced : Node → Prop
  | Node.null => True
  | Node.mk l _ r _ =>
    (height l ≤ height r + 1 ∧ height r ≤ height l + 1) ∧ heightBalanced l ∧ heightBalanced r

/-- A valid AVL tree: BST-ordered, every stored balance exact and of absolute
value at most one. -/
def validAVL (t : Node) : Prop :=
  bstOrdered t ∧ balanceExact t ∧ balancesSettled t

/-- The root leans only towards a child that is there: a negative stored
balance comes with a left child, a positive one with a right child. -/
def leansOnChild : Node → Prop
  | Node.null => False
  | Node.mk l _ r b => (b < 0 → l ≠ null) ∧ (0 < b → r ≠ null)

/-- The stress scenario: add every element of `xs` to the empty tree, then
remove every element of `ys`. -/
def insertAllRemoveAll (xs ys : List Int) : Option Tree :=
  match addAll empty xs with
  | none => none
  | some t => removeAll t ys

/-- The mirror image of a tree: left and right swapped at every node and every
stored balance negated. -/
def mirror : Node → Node
  | Node.null => Node.null
  | Node.mk l v r b => Node.mk (mirror r) v (mirror l) (-b)

/-- The read `p->balance`. -/
def balanceOf : Node → Option Int
  | Node.null => none
  | Node.mk _ _ _ b => some b

/-- The part of `addNode` that precedes the call of `rebalance`: the descent
into a subtree and the update of `current->balance`.  The result is the node
that `addNode` hands to `rebalance` and the flag at that point; `none` on a
null node, where `addNode` returns before any call of `rebalance`, and when the
recursive call does not complete. -/
def addDescend : Node → Int → Bool → Option (Node × Bool)
  | Node.null, _, _ => none
  | Node.mk left value right balance, valToAdd, heightIncreased =>
    if valToAdd > value then
      match addNode right valToAdd heightIncreased with
      | none => none
      | some (r, h) => some (Node.mk left value r (if h then balance + 1 else balance), h)
    else if valToAdd < value then
      match addNode left valToAdd heightIncreased with
      | none => none
      | some (l, h) => some (Node.mk l value right (if h then balance - 1 else balance), h)
    else some (Node.mk left value right balance, heightIncreased)

instance decBstOrdered : (t : Node) → Decidable (bstOrdered t)
  | Node.null => isTrue trivial
  | Node.mk l v r _ =>
    have := decBstOrdered l
    have := decBstOrdered r
    (inferInstance : Decidable ((∀ x ∈ inorderAscending l, x < v) ∧
      (∀ x ∈ inorderAscending r, v < x) ∧ bstOrdered l ∧ bstOrdered r))

instance decBalanceExact : (t : Node) → Decidable (balanceExact t)
  | Node.null => isTrue trivial
  | Node.mk l _ r b =>
    have := decBalanceExact l
    have := decBalanceExact r
    (inferInstance : Decidable (b = (height r : Int) - (height l : Int) ∧
      balanceExact l ∧ balanceExact r))

instance decBalancesSettled : (t : Node) → Decidable (balancesSettled t)
  | Node.null => isTrue trivial
  | Node.mk l _ r b =>
    have := decBalancesSettled l
    have := decBalancesSettled r
    (inferInstance : Decidable ((-1 ≤ b ∧ b ≤ 1) ∧ balancesSettled l ∧ balancesSettled r))

instance decHeightBalanced : (t : Node) → Decidable (heightBalanced t)
  | Node.null => isTrue trivial
  | Node.mk l _ r _ =>
    have := decHeightBalanced l
    have := decHeightBalanced r
    (inferInstance : Decidable ((height l ≤ height r + 1 ∧ height r ≤ height l + 1) ∧
      heightBalanced l ∧ heightBalanced r))

instance decValidAVL (t : Node) : Decidable (validAVL t) :=
  (inferInstance : Decidable (bstOrdered t ∧ balanceExact t ∧ balancesSettled t))

end Tree

end AVLOptimized

/-!
# SingleLinkedList: a shallow embedding of `DataStructures/LinkedLists/SingleLinkedList/SingleLinkedList.h`

The nodes of the list live on the free store and are reached through the raw
pointers `head`, `tail` and `next`; `tail` and the `next` link of the node
before it alias the same node.  The free store is modelled by the sequence of
the nodes allocated so far, the address of a node being its position in that
sequence; a pointer is `none` for `nullptr` or `some a` for the address `a`.
`new` does not return `nullptr`, so the two `return false` branches are never
taken.  The `for` loop of `printForward` follows `next` links, so the model of
the loop takes a bound on the number of iterations and returns `none` when the
bound is used up or a link leaves the free store.  The `int` counter of
`printForward` is modelled by a natural number (lists of fewer than `2^31`
nodes).
-/

namespace SingleLinkedList

/-- The class `Node`: a value and the pointer to the next node. -/
structure Node where
  value : Int
  next : Option Nat
deriving DecidableEq

/-- The free store: the nodes allocated so far, each at the address given by
its position. -/
abbrev Heap := List Node

/-- A sequence of values, as written by `printForward`. -/
abbrev Values := List Int

/-- A sequence of addresses. -/
abbrev Addrs := List Nat

/-- One call of the public interface of `List`. -/
inductive Call where
  | addToBack (value : Int) : Call
  | addToFront (value : Int) : Call
deriving DecidableEq

/-- A sequence of calls. -/
abbrev Calls := List Call

/-- The values returned by a sequence of calls. -/
abbrev Flags := List Bool

/-- The class `List`: the pointers `head` and `tail`. -/
structure List where
  head : Option Nat
  tail : Option Nat
deriving DecidableEq

namespace List

/-- The constructor `List()`: `head = nullptr; tail = nullptr`. -/
def init : List := ⟨none, none⟩

/-- The expression `new Node(value)`: a node with `next = nullptr` at a fresh
address. -/
def allocate (heap : Heap) (value : Int) : Heap × Nat :=
  (heap ++ [⟨value, none⟩], heap.length)

/-- The assignment `p->next = q`; `none` when `p` is not the address of a
node. -/
def setNext (heap : Heap) (p : Nat) (q : Option Nat) : Option Heap :=
  match heap[p]? with
  | none => none
  | some n => some (heap.set p ⟨n.value, q⟩)

/-- Source `addToBack`: allocate; on an empty list `head = tail = newNode`;
otherwise `tail->next = newNode; tail = newNode`; return `true`. -/
def addToBack (heap : Heap) (l : List) (value : Int) : Option (Heap × List × Bool) :=
  match allocate heap value with
  | (heap1, newNode) =>
    match l.head with
    | none => some (heap1, ⟨some newNode, some newNode⟩, true)
    | some h =>
      match l.tail with
      | none => none
      | some t =>
        match setNext heap1 t (some newNode) with
        | none => none
        | some heap2 => some (heap2, ⟨some h, some newNode⟩, true)

/-- Source `addToFront`: allocate; on an empty list `tail = newNode`, otherwise
`newNode->next = head`; then `head = newNode`; return `true`. -/
def addToFront (heap : Heap) (l : List) (value : Int) : Option (Heap × List × Bool) :=
  match allocate heap value with
  | (heap1, newNode) =>
    match l.head with
    | none => some (heap1, ⟨some newNode, some newNode⟩, true)
    | some h =>
      match setNext heap1 newNode (some h) with
      | none => none
      | some heap2 => some (heap2, ⟨some newNode, l.tail⟩, true)

/-- The loop of `printForward`, `for (current = head; current; current =
current->next)`, with the values written so far and the running `count`; at
most `fuel` iterations. -/
def forLoop (heap : Heap) : Nat → Option Nat → Values → Nat → Option (Values × Nat)
  | _, none, out, count => some (out, count)
  | 0, some _, _, _ => none
  | fuel + 1, some a, out, count =>
    match heap[a]? with
    | none => none
    | some n => forLoop heap fuel n.next (out ++ [n.value]) (count + 1)

/-- Source `printForward`: the values written to `cout` and the returned
count. -/
def printForward (heap : Heap) (l : List) (fuel : Nat) : Option (Values × Nat) :=
  forLoop heap fuel l.head [] 0

/-- The addresses of the nodes that the loop of `printForward` visits, in
visiting order. -/
def visited (heap : Heap) : Nat → Option Nat → Option Addrs
  | _, none => some []
  | 0, some _ => none
  | fuel + 1, some a =>
    match heap[a]? with
    | none => none
    | some n =>
      match visited heap fuel n.next with
      | none => none
      | some as => some (a :: as)

/-- Perform one call. -/
def call (heap : Heap) (l : List) : Call → Option (Heap × List × Bool)
  | Call.addToBack v => addToBack heap l v
  | Call.addToFront v => addToFront heap l v

/-- Perform a sequence of calls in order, collecting the returned values. -/
def run : Heap → List → Calls → Option (Heap × List × Flags)
  | heap, l, [] => some (heap, l, [])
  | heap, l, c :: cs =>
    match call heap l c with
    | none => none
    | some (heap1, l1, flag) =>
      match run heap1 l1 cs with
      | none => none
      | some (heap2, l2, flags) => some (heap2, l2, flag :: flags)

/-- The sequence model of the calls: `addToFront` prepends, `addToBack`
appends. -/
def model : Values → Calls → Values
  | m, [] => m
  | m, Call.addToBack v :: cs => model (m ++ [v]) cs
  | m, Call.addToFront v :: cs => model (v :: m) cs

/-- The nodes at the addresses `addrs`, in this order, form the chain that
starts at the pointer `start`, ends with a null `next` link and holds the
values `vals`. -/
def IsChain (heap : Heap) : Option Nat → Addrs → Values → Prop
  | start, [], [] => start = none
  | start, a :: as, v :: vs =>
    start = some a ∧ ∃ nxt, heap[a]? = some ⟨v, nxt⟩ ∧ IsChain heap nxt as vs
  | _, _, _ => False

end List

end SingleLinkedList

namespace AVLOptimized

namespace Tree

open Node

/-! ## Rotations keep the in-order sequence -/

theorem inorder_mk (l : Node) (v : Int) (r : Node) (b : Int) :
    inorderAscending (Node.mk l v r b) = inorderAscending l ++ v :: inorderAscending r := rfl

theorem rotateLL_inorder {t t2 : Node} (h : rotateLL t = some t2) :
    inorderAscending t2 = inorderAscending t := by
  cases t with
  | null => simp [rotateLL] at h
  | mk l v r b =>
    cases r with
    | null => simp [rotateLL] at h
    | mk cl cv cr cb =>
      simp only [rotateLL, Option.some.injEq] at h
      subst h
      simp [inorderAscending]

theorem rotateRR_inorder {t t2 : Node} (h : rotateRR t = some t2) :
    inorderAscending t2 = inorderAscending t := by
  cases t with
  | null => simp [rotateRR] at h
  | mk l v r b =>
    cases l with
    | null => simp [rotateRR] at h
    | mk cl cv cr cb =>
      simp only [rotateRR, Option.some.injEq] at h
      subst h
      simp [inorderAscending]

theorem rotateRL_inorder {t t2 : Node} (h : rotateRL t = some t2) :
    inorderAscending t2 = inorderAscending t := by
  cases t with
  | null => simp [rotateRL] at h
  | mk l v r b =>
    cases r with
    | null => simp [rotateRL] at h
    | mk cl cv cr cb =>
      cases cl with
      | null => simp [rotateRL] at h
      | mk gl gv gr gb =>
        simp only [rotateRL, Option.some.injEq] at h
        subst h
        simp [inorderAscending]

theorem rotateLR_inorder {t t2 : Node} (h : rotateLR t = some t2) :
    inorderAscending t2 = inorderAscending t := by
  cases t with
  | null => simp [rotateLR] at h
  | mk l v r b =>
    cases l with
    | null => simp [rotateLR] at h
    | mk cl cv cr cb =>
      cases cr with
      | null => simp [rotateLR] at h
      | mk gl gv gr gb =>
        simp only [rotateLR, Option.some.injEq] at h
        subst h
        simp [inorderAscending]

theorem rebalance_inorder {t t2 : Node} (h : rebalance t = some t2) :
    inorderAscending t2 = inorderAscending t := by
  cases t with
  | null =>
    simp only [rebalance, Option.some.injEq] at h
    subst h; rfl
  | mk l v r b =>
    simp only [rebalance] at h
    split_ifs at h with h2 hm2
    · cases r with
      | null => simp at h
      | mk rl rv rr rb =>
        simp only at h
        split_ifs at h
        · exact rotateLL_inorder h
        · exact rotateRL_inorder h
    · cases l with
      | null => simp at h
      | mk ll lv lr lb =>
        simp only at h
        split_ifs at h
        · exact rotateRR_inorder h
        · exact rotateLR_inorder h
    · simp only [Option.some.injEq] at h
      subst h; rfl

/-- A rebalanced non-null node is non-null. -/
theorem rebalance_ne_null {l r t2 : Node} {v b : Int}
    (h : rebalance (Node.mk l v r b) = some t2) : t2 ≠ null := by
  intro hn
  have := rebalance_inorder h
  rw [hn] at this
  simp [inorderAscending] at this

/-- BST order at every node is the same as a strictly increasing in-order
sequence. -/
theorem bstOrdered_iff_pairwise (t : Node) :
    bstOrdered t ↔ (inorderAscending t).Pairwise (· < ·) := by
  induction t with
  | null => simp [bstOrdered, inorderAscending]
  | mk l v r b ihl ihr =>
    simp only [bstOrdered, inorderAscending, List.pairwise_append, List.pairwise_cons,
      List.mem_cons, ihl, ihr]
    constructor
    · rintro ⟨hl, hr, pl, pr⟩
      refine ⟨pl, ⟨hr, pr⟩, ?_⟩
      intro a ha c hc
      rcases hc with rfl | hc
      · exact hl a ha
      · exact lt_trans (hl a ha) (hr c hc)
    · rintro ⟨pl, ⟨hr, pr⟩, hx⟩
      exact ⟨fun x hx2 => hx x hx2 v (Or.inl rfl), hr, pl, pr⟩

theorem rebalance_bstOrdered {t t2 : Node} (h : rebalance t = some t2)
    (hb : bstOrdered t) : bstOrdered t2 := by
  rw [bstOrdered_iff_pairwise] at hb ⊢
  rw [rebalance_inorder h]
  exact hb

/-! ## Insertion: what a completed call returns -/

theorem addFinish_some {c t2 : Node} {hi h : Bool} (e : addFinish c hi = some (t2, h)) :
    rebalance c = some t2 ∧
      ∃ l x r b, t2 = Node.mk l x r b ∧ h = (if b = 0 then false else hi) := by
  unfold addFinish at e
  cases hr : rebalance c with
  | none => simp [hr] at e
  | some n =>
    cases n with
    | null => simp [hr] at e
    | mk l x r b =>
      simp only [hr, Option.some.injEq, Prod.mk.injEq] at e
      obtain ⟨e1, e2⟩ := e
      subst e1
      exact ⟨rfl, l, x, r, b, rfl, e2.symm⟩

/-- The three ways a call of `addNode` on a non-null node can complete. -/
theorem addNode_mk_cases {l r t2 : Node} {x b v : Int} {hi h : Bool}
    (e : addNode (Node.mk l x r b) v hi = some (t2, h)) :
    (x < v ∧ ∃ r2 h2, addNode r v hi = some (r2, h2) ∧
        addFinish (Node.mk l x r2 (if h2 then b + 1 else b)) h2 = some (t2, h)) ∨
    (v < x ∧ ∃ l2 h2, addNode l v hi = some (l2, h2) ∧
        addFinish (Node.mk l2 x r (if h2 then b - 1 else b)) h2 = some (t2, h)) ∨
    (v = x ∧ addFinish (Node.mk l x r b) hi = some (t2, h)) := by
  simp only [addNode] at e
  split_ifs at e with h1 h2
  · left
    refine ⟨h1, ?_⟩
    cases hr : addNode r v hi with
    | none => simp [hr] at e
    | some p =>
      obtain ⟨r2, h3⟩ := p
      simp only [hr] at e
      exact ⟨r2, h3, rfl, e⟩
  · right; left
    refine ⟨h2, ?_⟩
    cases hl : addNode l v hi with
    | none => simp [hl] at e
    | some p =>
      obtain ⟨l2, h3⟩ := p
      simp only [hl] at e
      exact ⟨l2, h3, rfl, e⟩
  · right; right
    exact ⟨le_antisymm (not_lt.mp h1) (not_lt.mp h2), e⟩

/-- A completed `addNode` returns a tree whose values are the old ones and the
added one. -/
theorem addNode_mem {t t2 : Node} {v : Int} {hi h : Bool}
    (e : addNode t v hi = some (t2, h)) (y : Int) :
    y ∈ inorderAscending t2 ↔ y = v ∨ y ∈ inorderAscending t := by
  induction t generalizing t2 h hi with
  | null =>
    simp only [addNode, Option.some.injEq, Prod.mk.injEq] at e
    obtain ⟨e1, -⟩ := e
    subst e1
    simp [Node.new, inorderAscending]
  | mk l x r b ihl ihr =>
    rcases addNode_mk_cases e with ⟨-, r2, h2, e1, e2⟩ | ⟨-, l2, h2, e1, e2⟩ | ⟨hv, e2⟩
    · rw [rebalance_inorder (addFinish_some e2).1]
      simp only [inorder_mk, List.mem_append, List.mem_cons, ihr e1]
      tauto
    · rw [rebalance_inorder (addFinish_some e2).1]
      simp only [inorder_mk, List.mem_append, List.mem_cons, ihl e1]
      tauto
    · rw [rebalance_inorder (addFinish_some e2).1]
      simp only [inorder_mk, List.mem_append, List.mem_cons, hv]
      tauto

/-- A completed `addNode` keeps BST order. -/
theorem addNode_bstOrdered {t t2 : Node} {v : Int} {hi h : Bool}
    (e : addNode t v hi = some (t2, h)) (hb : bstOrdered t) : bstOrdered t2 := by
  induction t generalizing t2 h hi with
  | null =>
    simp only [addNode, Option.some.injEq, Prod.mk.injEq] at e
    obtain ⟨e1, -⟩ := e
    subst e1
    simp [Node.new, bstOrdered, inorderAscending]
  | mk l x r b ihl ihr =>
    obtain ⟨hl, hr, bl, br⟩ := hb
    rcases addNode_mk_cases e with ⟨hv, r2, h2, e1, e2⟩ | ⟨hv, l2, h2, e1, e2⟩ | ⟨-, e2⟩
    · refine rebalance_bstOrdered (addFinish_some e2).1 ⟨hl, ?_, bl, ihr e1 br⟩
      intro y hy
      rcases (addNode_mem e1 y).1 hy with rfl | hy
      · exact hv
      · exact hr y hy
    · refine rebalance_bstOrdered (addFinish_some e2).1 ⟨?_, hr, ihl e1 bl, br⟩
      intro y hy
      rcases (addNode_mem e1 y).1 hy with rfl | hy
      · exact hv
      · exact hl y hy
    · exact rebalance_bstOrdered (addFinish_some e2).1 ⟨hl, hr, bl, br⟩

/-- On a tree whose stored balances are settled, `addNode` started with
`heightIncreased = false` completes, the stored balances stay settled, and a
reported height increase comes with a root that leans on an existing child. -/
theorem addNode_settled (t : Node) (v : Int) (hs : balancesSettled t) :
    ∃ t2 h, addNode t v false = some (t2, h) ∧ balancesSettled t2 ∧
      (h = true → leansOnChild t2) := by
  induction t with
  | null =>
    refine ⟨Node.new v, true, rfl, ?_, ?_⟩
    · simp [Node.new, balancesSettled]
    · simp [Node.new, leansOnChild]
  | mk l x r b ihl ihr =>
    obtain ⟨⟨hb1, hb2⟩, sl, sr⟩ := hs
    simp only [addNode]
    split_ifs with h1 h2
    · obtain ⟨r2, h, e, s2, ls⟩ := ihr sr
      simp only [e]
      cases h with
      | false =>
        have n2 : b ≠ 2 := by omega
        have nm2 : b ≠ -2 := by omega
        refine ⟨Node.mk l x r2 b, false, ?_, ⟨⟨hb1, hb2⟩, sl, s2⟩, by simp⟩
        simp [addFinish, rebalance, n2, nm2]
      | true =>
        have ls2 := ls rfl
        cases r2 with
        | null => exact absurd ls2 (by simp [leansOnChild])
        | mk rl rv rr rb =>
          obtain ⟨⟨hr1, hr2⟩, srl, srr⟩ := s2
          by_cases hb : b = 1
          · subst hb
            by_cases hrb : rb ≥ 0
            · refine ⟨Node.mk (Node.mk l x rl (-(rb - 1))) rv rr (rb - 1),
                (if rb - 1 = 0 then false else true), ?_, ?_, ?_⟩
              · simp [addFinish, rebalance, rotateLL, hrb]
              · refine ⟨⟨by omega, by omega⟩, ⟨⟨by omega, by omega⟩, sl, srl⟩, srr⟩
              · intro _
                exact ⟨fun _ => by simp, fun hp => by omega⟩
            · have hrl := ls2.1 (by omega)
              cases rl with
              | null => exact absurd rfl hrl
              | mk gl gv gr gb =>
                obtain ⟨⟨hg1, hg2⟩, sgl, sgr⟩ := srl
                refine ⟨Node.mk (Node.mk l x gl (-(min gb 0))) gv
                  (Node.mk gr rv rr (-(max gb 0))) 0, false, ?_, ?_, by simp⟩
                · simp [addFinish, rebalance, rotateRL, hrb]
                · refine ⟨⟨by omega, by omega⟩, ⟨⟨?_, ?_⟩, sl, sgl⟩, ⟨⟨?_, ?_⟩, sgr, srr⟩⟩
                  · have := min_le_right gb 0; omega
                  · have := le_min hg1 (by omega : (-1 : Int) ≤ 0); omega
                  · have := max_le hg2 (by omega : (0 : Int) ≤ 1); omega
                  · have := le_max_right gb 0; omega
          · have n2 : b + 1 ≠ 2 := by omega
            have nm2 : b + 1 ≠ -2 := by omega
            refine ⟨Node.mk l x (Node.mk rl rv rr rb) (b + 1),
              (if b + 1 = 0 then false else true), ?_, ?_, ?_⟩
            · simp [addFinish, rebalance, n2, nm2]
            · exact ⟨⟨by omega, by omega⟩, sl, ⟨hr1, hr2⟩, srl, srr⟩
            · intro _
              exact ⟨fun hn => by omega, fun _ => by simp⟩
    · obtain ⟨l2, h, e, s2, ls⟩ := ihl sl
      simp only [e]
      cases h with
      | false =>
        have n2 : b ≠ 2 := by omega
        have nm2 : b ≠ -2 := by omega
        refine ⟨Node.mk l2 x r b, false, ?_, ⟨⟨hb1, hb2⟩, s2, sr⟩, by simp⟩
        simp [addFinish, rebalance, n2, nm2]
      | true =>
        have ls2 := ls rfl
        cases l2 with
        | null => exact absurd ls2 (by simp [leansOnChild])
        | mk ll lv lr lb =>
          obtain ⟨⟨hl1, hl2⟩, sll, slr⟩ := s2
          by_cases hb : b = -1
          · subst hb
            by_cases hlb : lb ≤ 0
            · refine ⟨Node.mk ll lv (Node.mk lr x r (-(lb + 1))) (lb + 1),
                (if lb + 1 = 0 then false else true), ?_, ?_, ?_⟩
              · simp [addFinish, rebalance, rotateRR, hlb]
              · refine ⟨⟨by omega, by omega⟩, sll, ⟨⟨by omega, by omega⟩, slr, sr⟩⟩
              · intro _
                exact ⟨fun hp => by omega, fun _ => by simp⟩
            · have hlr := ls2.2 (by omega)
              cases lr with
              | null => exact absurd rfl hlr
              | mk gl gv gr gb =>
                obtain ⟨⟨hg1, hg2⟩, sgl, sgr⟩ := slr
                refine ⟨Node.mk (Node.mk ll lv gl (-(min gb 0))) gv
                  (Node.mk gr x r (-(max gb 0))) 0, false, ?_, ?_, by simp⟩
                · simp [addFinish, rebalance, rotateLR, hlb]
                · refine ⟨⟨by omega, by omega⟩, ⟨⟨?_, ?_⟩, sll, sgl⟩, ⟨⟨?_, ?_⟩, sgr, sr⟩⟩
                  · have := min_le_right gb 0; omega
                  · have := le_min hg1 (by omega : (-1 : Int) ≤ 0); omega
                  · have := max_le hg2 (by omega : (0 : Int) ≤ 1); omega
                  · have := le_max_right gb 0; omega
          · have n2 : b - 1 ≠ 2 := by omega
            have nm2 : b - 1 ≠ -2 := by omega
            refine ⟨Node.mk (Node.mk ll lv lr lb) x r (b - 1),
              (if b - 1 = 0 then false else true), ?_, ?_, ?_⟩
            · simp [addFinish, rebalance, n2, nm2]
            · exact ⟨⟨by omega, by omega⟩, ⟨⟨hl1, hl2⟩, sll, slr⟩, sr⟩
            · intro _
              exact ⟨fun _ => by simp, fun hn => by omega⟩
    · have n2 : b ≠ 2 := by omega
      have nm2 : b ≠ -2 := by omega
      refine ⟨Node.mk l x r b, false, ?_, ⟨⟨hb1, hb2⟩, sl, sr⟩, by simp⟩
      simp [addFinish, rebalance, n2, nm2]

/-- Adding a list of values to a BST-ordered tree with settled balances
completes and yields a BST-ordered tree with settled balances holding the old
values and the added ones. -/
theorem addAll_spec (xs : List Int) (t : Tree) (hs : balancesSettled t.root)
    (hb : bstOrdered t.root) :
    ∃ t2, addAll t xs = some t2 ∧ balancesSettled t2.root ∧ bstOrdered t2.root ∧
      ∀ y, y ∈ inorderAscending t2.root ↔ y ∈ xs ∨ y ∈ inorderAscending t.root := by
  induction xs generalizing t with
  | nil => exact ⟨t, rfl, hs, hb, by simp⟩
  | cons x xs ih =>
    obtain ⟨r, h, e, s2, -⟩ := addNode_settled t.root x hs
    obtain ⟨t3, e3, s3, b3, m3⟩ := ih ⟨r⟩ s2 (addNode_bstOrdered e hb)
    refine ⟨t3, ?_, s3, b3, ?_⟩
    · simp only [addAll, add, e]
      exact e3
    · intro y
      rw [m3 y, addNode_mem e y]
      simp only [List.mem_cons]
      tauto

/-! ## Deletion: what a completed call returns -/

theorem shrunkRight_some {l r t2 : Node} {x b : Int} {h h2 : Bool}
    (e : shrunkRight l x r b h = some (t2, h2)) :
    rebalance (Node.mk l x r (if h then b - 1 else b)) = some t2 := by
  unfold shrunkRight at e
  cases hr : rebalance (Node.mk l x r (if h then b - 1 else b)) with
  | none => simp [hr] at e
  | some c =>
    simp only [hr, Option.some.injEq, Prod.mk.injEq] at e
    rw [e.1]

theorem shrunkLeft_some {l r t2 : Node} {x b : Int} {h h2 : Bool}
    (e : shrunkLeft l x r b h = some (t2, h2)) :
    rebalance (Node.mk l x r (if h then b + 1 else b)) = some t2 := by
  unfold shrunkLeft at e
  cases hr : rebalance (Node.mk l x r (if h then b + 1 else b)) with
  | none => simp [hr] at e
  | some c =>
    simp only [hr, Option.some.injEq, Prod.mk.injEq] at e
    rw [e.1]

/-- The ways a call of `removeNode` on a non-null node can complete: descent to
the right, descent to the left, and the four scenarios of a match. -/
theorem removeNode_mk_cases {l r t2 : Node} {x b v : Int} {hd h : Bool}
    (e : removeNode (Node.mk l x r b) v hd = some (t2, h)) :
    (x < v ∧ ∃ r2 h2, removeNode r v hd = some (r2, h2) ∧
        shrunkRight l x r2 b h2 = some (t2, h)) ∨
    (v < x ∧ ∃ l2 h2, removeNode l v hd = some (l2, h2) ∧
        shrunkLeft l2 x r b h2 = some (t2, h)) ∨
    (v = x ∧ l = null ∧ r = null ∧ t2 = null ∧ h = true) ∨
    (v = x ∧ l ≠ null ∧ r = null ∧ t2 = l ∧ h = true) ∨
    (v = x ∧ l = null ∧ r ≠ null ∧ t2 = r ∧ h = true) ∨
    (v = x ∧ l ≠ null ∧ r ≠ null ∧ ∃ s r2 h2, valueOf (leftmost r) = some s ∧
        removeNode r s hd = some (r2, h2) ∧ shrunkRight l s r2 b h2 = some (t2, h)) := by
  simp only [removeNode] at e
  split_ifs at e with h1 h2 h3 h4 h5
  · left
    refine ⟨h1, ?_⟩
    cases hr : removeNode r v hd with
    | none => simp [hr] at e
    | some p =>
      obtain ⟨r2, h3⟩ := p
      simp only [hr] at e
      exact ⟨r2, h3, rfl, e⟩
  · right; left
    refine ⟨h2, ?_⟩
    cases hl : removeNode l v hd with
    | none => simp [hl] at e
    | some p =>
      obtain ⟨l2, h3⟩ := p
      simp only [hl] at e
      exact ⟨l2, h3, rfl, e⟩
  all_goals have hv : v = x := le_antisymm (not_lt.mp h1) (not_lt.mp h2)
  · right; right; left
    cases l <;> cases r <;> simp_all [Node.isNull]
  · right; right; right; left
    cases l with
    | null => simp [Node.isNull] at h4
    | mk ll lv lr lb =>
      cases r with
      | null =>
        simp only [Option.some.injEq, Prod.mk.injEq] at e
        exact ⟨hv, by simp, rfl, e.1.symm, e.2.symm⟩
      | mk rl rv rr rb => simp [Node.isNull] at h4
  · right; right; right; right; left
    cases r with
    | null => simp [Node.isNull] at h5
    | mk rl rv rr rb =>
      cases l with
      | null =>
        simp only [Option.some.injEq, Prod.mk.injEq] at e
        exact ⟨hv, rfl, by simp, e.1.symm, e.2.symm⟩
      | mk ll lv lr lb => simp [Node.isNull] at h5
  · right; right; right; right; right
    have hl : l ≠ null := by
      cases l <;> cases r <;> simp_all [Node.isNull]
    have hr : r ≠ null := by
      cases l <;> cases r <;> simp_all [Node.isNull]
    refine ⟨hv, hl, hr, ?_⟩
    cases hs : valueOf (leftmost r) with
    | none => simp [hs] at e
    | some s =>
      simp only [hs] at e
      cases hrm : removeNode r s hd with
      | none => simp [hrm] at e
      | some p =>
        obtain ⟨r2, h6⟩ := p
        simp only [hrm] at e
        exact ⟨s, r2, h6, rfl, hrm, e⟩

/-- The successor found by the leftward walk holds the first value of the
in-order sequence. -/
theorem leftmost_inorder (r : Node) (s : Int) (h : valueOf (leftmost r) = some s) :
    ∃ tl, inorderAscending r = s :: tl := by
  induction r with
  | null => simp [leftmost, valueOf] at h
  | mk l v rr b ihl _ =>
    cases l with
    | null =>
      simp only [leftmost, valueOf, Option.some.injEq] at h
      subst h
      exact ⟨inorderAscending rr, by simp [inorderAscending]⟩
    | mk ll lv lr lb =>
      simp only [leftmost] at h
      obtain ⟨tl, e⟩ := ihl h
      exact ⟨tl ++ v :: inorderAscending rr, by rw [inorder_mk, e]; rfl⟩

/-- The walk from a non-null node ends at a node. -/
theorem leftmost_value (r : Node) (h : r ≠ null) : ∃ s, valueOf (leftmost r) = some s := by
  induction r with
  | null => exact absurd rfl h
  | mk l v rr b ihl _ =>
    cases l with
    | null => exact ⟨v, by simp [leftmost, valueOf]⟩
    | mk ll lv lr lb =>
      obtain ⟨s, e⟩ := ihl (by simp)
      exact ⟨s, by simpa only [leftmost] using e⟩

/-- On a BST-ordered tree a completed `removeNode` erases the value from the
in-order sequence. -/
theorem removeNode_inorder {t t2 : Node} {v : Int} {hd h : Bool}
    (e : removeNode t v hd = some (t2, h)) (hb : bstOrdered t) :
    inorderAscending t2 = (inorderAscending t).erase v := by
  induction t generalizing t2 h hd v with
  | null =>
    simp only [removeNode, Option.some.injEq, Prod.mk.injEq] at e
    obtain ⟨e1, -⟩ := e
    subst e1
    simp [inorderAscending]
  | mk l x r b ihl ihr =>
    obtain ⟨hl, hr, bl, br⟩ := hb
    have hxl : x ∉ inorderAscending l := fun hm => lt_irrefl x (hl x hm)
    rcases removeNode_mk_cases e with ⟨hv, r2, h2, e1, e2⟩ | ⟨hv, l2, h2, e1, e2⟩ |
      ⟨hv, rfl, rfl, rfl, -⟩ | ⟨hv, -, rfl, rfl, -⟩ | ⟨hv, rfl, -, rfl, -⟩ |
      ⟨hv, -, -, s, r2, h2, es, e1, e2⟩
    · have hvl : v ∉ inorderAscending l := fun hm => lt_asymm hv (hl v hm)
      rw [rebalance_inorder (shrunkRight_some e2), inorder_mk, inorder_mk, ihr e1 br,
        List.erase_append_right _ hvl, List.erase_cons_tail (by simpa using hv.ne)]
    · rw [rebalance_inorder (shrunkLeft_some e2), inorder_mk, inorder_mk, ihl e1 bl]
      by_cases hm : v ∈ inorderAscending l
      · rw [List.erase_append_left _ hm]
      · have hvr : v ∉ inorderAscending r := fun hm2 => lt_asymm hv (hr v hm2)
        rw [List.erase_append_right _ hm, List.erase_cons_tail (by simpa using hv.ne.symm),
          List.erase_of_not_mem hm, List.erase_of_not_mem hvr]
    · subst hv
      simp [inorderAscending]
    · subst hv
      rw [inorder_mk, List.erase_append_right _ hxl]
      simp [inorderAscending]
    · subst hv
      simp [inorderAscending]
    · subst hv
      obtain ⟨tl, etl⟩ := leftmost_inorder r s es
      rw [rebalance_inorder (shrunkRight_some e2), inorder_mk, inorder_mk, ihr e1 br,
        List.erase_append_right _ hxl, etl]
      simp

/-- On a BST-ordered tree a completed `removeNode` keeps BST order. -/
theorem removeNode_bstOrdered {t t2 : Node} {v : Int} {hd h : Bool}
    (e : removeNode t v hd = some (t2, h)) (hb : bstOrdered t) : bstOrdered t2 := by
  have hi := removeNode_inorder e hb
  rw [bstOrdered_iff_pairwise] at hb ⊢
  rw [hi]
  exact hb.sublist (List.erase_sublist v _)

/-! ## Deletion completes on trees with exact, settled balances -/

theorem rebalance_of_ne (l : Node) (x : Int) (r : Node) {b : Int} (h2 : b ≠ 2)
    (hm2 : b ≠ -2) : rebalance (Node.mk l x r b) = some (Node.mk l x r b) := by
  simp [rebalance, h2, hm2]

theorem ne_null_of_height_pos {t : Node} (h : 0 < height t) : t ≠ null := by
  intro hn
  rw [hn] at h
  simp [height] at h

/-- With an exact positive balance the right child is there. -/
theorem exact_right_ne_null {l r : Node} {x b : Int}
    (he : balanceExact (Node.mk l x r b)) (hb : 0 < b) : r ≠ null := by
  apply ne_null_of_height_pos
  have := he.1
  omega

/-- With an exact negative balance the left child is there. -/
theorem exact_left_ne_null {l r : Node} {x b : Int}
    (he : balanceExact (Node.mk l x r b)) (hb : b < 0) : l ≠ null := by
  apply ne_null_of_height_pos
  have := he.1
  omega

/-- The dispatcher completes at balance `-2` when the left subtree is non-empty
and carries exact balances. -/
theorem rebalance_left_heavy (l : Node) (x : Int) (r : Node) (hl : 0 < height l)
    (he : balanceExact l) : ∃ c, rebalance (Node.mk l x r (-2)) = some c := by
  cases l with
  | null => simp [height] at hl
  | mk ll lv lr lb =>
    by_cases hlb : lb ≤ 0
    · simp [rebalance, rotateRR, hlb]
    · have hlr := exact_right_ne_null he (by omega)
      cases lr with
      | null => exact absurd rfl hlr
      | mk gl gv gr gb => simp [rebalance, rotateLR, hlb]

/-- The dispatcher completes at balance `+2` when the right subtree is
non-empty and carries exact balances. -/
theorem rebalance_right_heavy (l : Node) (x : Int) (r : Node) (hr : 0 < height r)
    (he : balanceExact r) : ∃ c, rebalance (Node.mk l x r 2) = some c := by
  cases r with
  | null => simp [height] at hr
  | mk rl rv rr rb =>
    by_cases hrb : rb ≥ 0
    · simp [rebalance, rotateLL, hrb]
    · have hrl := exact_left_ne_null he (by omega)
      cases rl with
      | null => exact absurd rfl hrl
      | mk gl gv gr gb => simp [rebalance, rotateRL, hrb]

theorem shrunkRight_total (l : Node) (x : Int) (r r2 : Node) (b : Int) (h : Bool)
    (hx : b = (height r : Int) - (height l : Int)) (hs : -1 ≤ b ∧ b ≤ 1)
    (hel : balanceExact l) : ∃ t2 h2, shrunkRight l x r2 b h = some (t2, h2) := by
  have key : ∃ c, rebalance (Node.mk l x r2 (if h then b - 1 else b)) = some c := by
    by_cases hm : (if h then b - 1 else b) = -2
    · rw [hm]
      apply rebalance_left_heavy _ _ _ _ hel
      split_ifs at hm <;> omega
    · exact ⟨_, rebalance_of_ne _ _ _ (by split_ifs <;> omega) hm⟩
  obtain ⟨c, hc⟩ := key
  simp only [shrunkRight, hc]
  exact ⟨_, _, rfl⟩

theorem shrunkLeft_total (l2 l : Node) (x : Int) (r : Node) (b : Int) (h : Bool)
    (hx : b = (height r : Int) - (height l : Int)) (hs : -1 ≤ b ∧ b ≤ 1)
    (her : balanceExact r) : ∃ t2 h2, shrunkLeft l2 x r b h = some (t2, h2) := by
  have key : ∃ c, rebalance (Node.mk l2 x r (if h then b + 1 else b)) = some c := by
    by_cases hm : (if h then b + 1 else b) = 2
    · rw [hm]
      apply rebalance_right_heavy _ _ _ _ her
      split_ifs at hm <;> omega
    · exact ⟨_, rebalance_of_ne _ _ _ hm (by split_ifs <;> omega)⟩
  obtain ⟨c, hc⟩ := key
  simp only [shrunkLeft, hc]
  exact ⟨_, _, rfl⟩

/-- On a tree whose stored balances are exact and settled `removeNode` never
reads through a null link: it completes. -/
theorem removeNode_total (t : Node) (v : Int) (hd : Bool) (he : balanceExact t)
    (hs : balancesSettled t) : ∃ t2 h, removeNode t v hd = some (t2, h) := by
  induction t generalizing v hd with
  | null => exact ⟨null, false, rfl⟩
  | mk l x r b ihl ihr =>
    obtain ⟨hx, el, er⟩ := he
    obtain ⟨hb, sl, sr⟩ := hs
    simp only [removeNode]
    split_ifs with h1 h2 h3 h4 h5
    · obtain ⟨r2, h, e⟩ := ihr v hd er sr
      simp only [e]
      exact shrunkRight_total l x r r2 b h hx hb el
    · obtain ⟨l2, h, e⟩ := ihl v hd el sl
      simp only [e]
      exact shrunkLeft_total l2 l x r b h hx hb er
    · exact ⟨_, _, rfl⟩
    · exact ⟨_, _, rfl⟩
    · exact ⟨_, _, rfl⟩
    · have hr : r ≠ null := by
        cases l <;> cases r <;> simp_all [Node.isNull]
      obtain ⟨s, es⟩ := leftmost_value r hr
      obtain ⟨r2, h, e⟩ := ihr s hd er sr
      simp only [es, e]
      exact shrunkRight_total l s r r2 b h hx hb el

/-! ## Completed runs of public calls keep BST order -/

theorem apply_bstOrdered {t t2 : Tree} {op : Op} (e : t.apply op = some t2)
    (hb : bstOrdered t.root) : bstOrdered t2.root := by
  cases op with
  | add v =>
    simp only [apply, add] at e
    cases hr : addNode t.root v false with
    | none => simp [hr] at e
    | some p =>
      obtain ⟨r, h⟩ := p
      simp only [hr, Option.some.injEq] at e
      subst e
      exact addNode_bstOrdered hr hb
  | remove v =>
    simp only [apply, remove] at e
    cases hr : removeNode t.root v false with
    | none => simp [hr] at e
    | some p =>
      obtain ⟨r, h⟩ := p
      simp only [hr, Option.some.injEq] at e
      subst e
      exact removeNode_bstOrdered hr hb

theorem runFrom_bstOrdered (ops : List Op) {t t2 : Tree} (e : runFrom t ops = some t2)
    (hb : bstOrdered t.root) : bstOrdered t2.root := by
  induction ops generalizing t with
  | nil =>
    simp only [runFrom, Option.some.injEq] at e
    subst e
    exact hb
  | cons op ops ih =>
    simp only [runFrom] at e
    cases ha : t.apply op with
    | none => simp [ha] at e
    | some t3 =>
      simp only [ha] at e
      exact ih e (apply_bstOrdered ha hb)

/-! ## The claims -/

/-- C1 (code defect).  The claim: after every finite sequence of `add` and
`remove` calls on the empty tree the resulting tree is BST-ordered.  The code
does not produce a tree for every such sequence: after `add 1, 2, 3, 5, 6, 4`,
`remove 1`, `remove 3` the tree is BST-ordered but node 2 is a leaf storing
balance `+1`; `remove 4` then drives the root to `-2`, `rebalance` picks
`rotateLR`, and `rotateLR` reads `grandchild->left` through the null right link
of node 2. -/
theorem run_reads_null_link :
    run [Op.add 1, Op.add 2, Op.add 3, Op.add 5, Op.add 6, Op.add 4, Op.remove 1,
        Op.remove 3] =
      some ⟨Node.mk (Node.mk null 2 null 1) 4 (Node.mk null 5 (Node.mk null 6 null 0) 0) (-1)⟩ ∧
    bstOrdered (Node.mk (Node.mk null 2 null 1) 4 (Node.mk null 5 (Node.mk null 6 null 0) 0) (-1)) ∧
    rotateLR (Node.mk (Node.mk null 2 null 1) 5 (Node.mk null 6 null 0) (-2)) = none ∧
    run [Op.add 1, Op.add 2, Op.add 3, Op.add 5, Op.add 6, Op.add 4, Op.remove 1,
        Op.remove 3, Op.remove 4] = none := by
  refine ⟨by decide, by decide, rfl, by decide⟩

/-- C2.  Sorted round trip: for every list `xs`, calling `add` on each element
in order from the empty tree completes, and `printAscending` then emits exactly
the distinct values of `xs` in strictly increasing order. -/
theorem printAscending_addAll (xs : List Int) :
    ∃ t, addAll empty xs = some t ∧ t.printAscending = xs.toFinset.sort (· ≤ ·) := by
  obtain ⟨t, e, -, hb, hm⟩ := addAll_spec xs empty (by simp [empty, balancesSettled])
    (by simp [empty, bstOrdered])
  refine ⟨t, e, ?_⟩
  rw [bstOrdered_iff_pairwise] at hb
  have hnd : (inorderAscending t.root).Nodup := hb.imp (fun h => ne_of_lt h)
  have hsorted : (inorderAscending t.root).Sorted (· ≤ ·) := hb.imp (fun h => le_of_lt h)
  apply List.eq_of_perm_of_sorted _ hsorted (Finset.sort_sorted _ _)
  rw [List.perm_ext_iff_of_nodup hnd (Finset.sort_nodup _ _)]
  intro y
  rw [hm y, Finset.mem_sort, List.mem_toFinset]
  simp [empty, inorderAscending]

/-- An evaluated round trip: adding 5, 3, 8, 1, 4, 7, 9 emits 1, 3, 4, 5, 7, 8, 9. -/
theorem printAscending_example :
    (addAll empty [5, 3, 8, 1, 4, 7, 9]).map printAscending = some [1, 3, 4, 5, 7, 8, 9] := by
  decide

/-- C3 as stated fails: the tree with root 2 (stored balance `-1`), left leaf 1
storing balance `+1` and right leaf 3 is BST-ordered, yet `remove 3` does not
return a tree.  The root's balance drops to `-2`, `rebalance` trusts the stored
`+1` of node 1 and calls `rotateLR`, which reads through the null right link of
node 1. -/
theorem remove_inexact_balance_reads_null :
    bstOrdered (Node.mk (Node.mk null 1 null 1) 2 (Node.mk null 3 null 0) (-1)) ∧
    balancesSettled (Node.mk (Node.mk null 1 null 1) 2 (Node.mk null 3 null 0) (-1)) ∧
    remove ⟨Node.mk (Node.mk null 1 null 1) 2 (Node.mk null 3 null 0) (-1)⟩ 3 = none := by
  refine ⟨by decide, by decide, by decide⟩

/-- C3 (amended).  For every BST-ordered tree `t` and every integer `v`:
`remove` completes whenever the stored balances of `t` are exact and of
absolute value at most one, and whenever `remove` completes the in-order
sequence of the result is the in-order sequence of `t` with `v` erased (the
two-children scenario with successor copy included). -/
theorem remove_erases_value (t : Tree) (v : Int) (hb : bstOrdered t.root) :
    (balanceExact t.root → balancesSettled t.root → ∃ t2, t.remove v = some t2) ∧
    ∀ t2, t.remove v = some t2 → t2.printAscending = t.printAscending.erase v := by
  constructor
  · intro he hs
    obtain ⟨r, h, e⟩ := removeNode_total t.root v false he hs
    exact ⟨⟨r⟩, by simp only [remove, e]⟩
  · intro t2 e
    simp only [remove] at e
    cases hr : removeNode t.root v false with
    | none => simp [hr] at e
    | some p =>
      obtain ⟨r, h⟩ := p
      simp only [hr, Option.some.injEq] at e
      subst e
      exact removeNode_inorder hr hb

/-- The example of C3: the tree built from 5, 3, 8, 1, 4, 7, 9 is BST-ordered,
and removing 5 (a node with two children) leaves 1, 3, 4, 7, 8, 9. -/
theorem remove_erases_value_witness :
    addAll empty [5, 3, 8, 1, 4, 7, 9] =
      some ⟨Node.mk (Node.mk (Node.mk null 1 null 0) 3 (Node.mk null 4 null 0) 0) 5
        (Node.mk (Node.mk null 7 null 0) 8 (Node.mk null 9 null 0) 0) 0⟩ ∧
    bstOrdered (Node.mk (Node.mk (Node.mk null 1 null 0) 3 (Node.mk null 4 null 0) 0) 5
        (Node.mk (Node.mk null 7 null 0) 8 (Node.mk null 9 null 0) 0) 0) ∧
    ∃ t2, remove ⟨Node.mk (Node.mk (Node.mk null 1 null 0) 3 (Node.mk null 4 null 0) 0) 5
        (Node.mk (Node.mk null 7 null 0) 8 (Node.mk null 9 null 0) 0) 0⟩ 5 = some t2 ∧
      t2.printAscending = [1, 3, 4, 7, 8, 9] := by
  refine ⟨by decide, by decide, ?_⟩
  have h := remove_erases_value
    ⟨Node.mk (Node.mk (Node.mk null 1 null 0) 3 (Node.mk null 4 null 0) 0) 5
      (Node.mk (Node.mk null 7 null 0) 8 (Node.mk null 9 null 0) 0) 0⟩ 5 (by decide)
  obtain ⟨t2, e⟩ := h.1 (by decide) (by decide)
  exact ⟨t2, e, by rw [h.2 t2 e]; decide⟩

/-- C4 (code defect).  The claim: after every sequence of public calls the
recomputed heights of the two subtrees of every node differ by at most one.
Adding 1, 2, 4, 5, 6, 3, 7 yields a tree in which node 5 has an empty left
subtree and a right subtree of height 2.  The insertion of 3 runs `rotateRL`
with grandchild balance `-1`, which stores `+1` in node 2 and `0` in node 5
where the shape has `0` and `+1`; the insertion of 7 then raises node 5 to a
stored `+1` and no rotation is made. -/
theorem add_sequence_not_heightBalanced :
    run [Op.add 1, Op.add 2, Op.add 4, Op.add 5, Op.add 6, Op.add 3, Op.add 7] =
      some ⟨Node.mk (Node.mk (Node.mk null 1 null 0) 2 (Node.mk null 3 null 0) 1) 4
        (Node.mk null 5 (Node.mk null 6 (Node.mk null 7 null 0) 1) 1) 1⟩ ∧
    ¬ heightBalanced (Node.mk (Node.mk (Node.mk null 1 null 0) 2 (Node.mk null 3 null 0) 1) 4
        (Node.mk null 5 (Node.mk null 6 (Node.mk null 7 null 0) 1) 1) 1) := by
  refine ⟨by decide, by decide⟩

/-- C5 (code defect).  The claim: after every sequence of `add` calls every
stored balance equals the recomputed right height minus left height.  Adding
1, 2, 3, 5, 6, 4 runs `rotateRL` with grandchild balance `+1`; the code stores
`-min(1, 0) = 0` in the old root 2, whose left subtree has height 1 and whose
right subtree is empty, and `-max(1, 0) = -1` in node 5, whose two subtrees
have the same height. -/
theorem addAll_stored_balance_not_exact :
    addAll empty [1, 2, 3, 5, 6, 4] =
      some ⟨Node.mk (Node.mk (Node.mk null 1 null 0) 2 null 0) 3
        (Node.mk (Node.mk null 4 null 0) 5 (Node.mk null 6 null 0) (-1)) 0⟩ ∧
    ¬ balanceExact (Node.mk (Node.mk (Node.mk null 1 null 0) 2 null 0) 3
        (Node.mk (Node.mk null 4 null 0) 5 (Node.mk null 6 null 0) (-1)) 0) ∧
    rotateRL (Node.mk (Node.mk null 1 null 0) 2
        (Node.mk (Node.mk null 3 (Node.mk null 4 null 0) 1) 5 (Node.mk null 6 null 0) (-1)) 2) =
      some (Node.mk (Node.mk (Node.mk null 1 null 0) 2 null 0) 3
        (Node.mk (Node.mk null 4 null 0) 5 (Node.mk null 6 null 0) (-1)) 0) := by
  refine ⟨by decide, by decide, by decide⟩

/-- C6 (code defect).  The claim: `remove` maps a valid AVL tree to a valid AVL
tree.  The tree built by adding 1, 2, 3, 5, 6, 7, 4 is a valid AVL tree;
`remove 1` rotates the left subtree (`rotateLL` at node 2), which makes that
subtree one level lower, but `heightDecreased` was already set to `false`
because the balance of node 2 was `+2` before the rotation.  The root keeps its
stored balance `-1` although both its subtrees now have height 2. -/
theorem remove_valid_not_exact :
    addAll empty [1, 2, 3, 5, 6, 7, 4] =
      some ⟨Node.mk (Node.mk (Node.mk null 1 null 0) 2
          (Node.mk null 3 (Node.mk null 4 null 0) 1) 1) 5
        (Node.mk null 6 (Node.mk null 7 null 0) 1) (-1)⟩ ∧
    validAVL (Node.mk (Node.mk (Node.mk null 1 null 0) 2
          (Node.mk null 3 (Node.mk null 4 null 0) 1) 1) 5
        (Node.mk null 6 (Node.mk null 7 null 0) 1) (-1)) ∧
    remove ⟨Node.mk (Node.mk (Node.mk null 1 null 0) 2
          (Node.mk null 3 (Node.mk null 4 null 0) 1) 1) 5
        (Node.mk null 6 (Node.mk null 7 null 0) 1) (-1)⟩ 1 =
      some ⟨Node.mk (Node.mk (Node.mk null 2 null 0) 3 (Node.mk null 4 null 0) 0) 5
        (Node.mk null 6 (Node.mk null 7 null 0) 1) (-1)⟩ ∧
    ¬ balanceExact (Node.mk (Node.mk (Node.mk null 2 null 0) 3 (Node.mk null 4 null 0) 0) 5
        (Node.mk null 6 (Node.mk null 7 null 0) 1) (-1)) := by
  refine ⟨by decide, by decide, by decide, by decide⟩

/-- On a tree with settled balances, `removeNode` of a value held by no node
hands the tree back untouched and reports no height decrease, whatever the
flag was on entry. -/
theorem removeNode_absent (t : Node) (v : Int) (hd : Bool) (hs : balancesSettled t)
    (hv : v ∉ inorderAscending t) : removeNode t v hd = some (t, false) := by
  induction t with
  | null => rfl
  | mk l x r b ihl ihr =>
    obtain ⟨hb, sl, sr⟩ := hs
    simp only [inorder_mk, List.mem_append, List.mem_cons, not_or] at hv
    obtain ⟨hvl, hvx, hvr⟩ := hv
    have n2 : b ≠ 2 := by omega
    have nm2 : b ≠ -2 := by omega
    simp only [removeNode]
    split_ifs with h1 h2
    · simp [ihr sr hvr, shrunkRight, rebalance_of_ne l x r n2 nm2]
    · simp [ihl sl hvl, shrunkLeft, rebalance_of_ne l x r n2 nm2]
    all_goals exact absurd (le_antisymm (not_lt.mp h1) (not_lt.mp h2)) hvx

/-- C7.  Removing an absent value is a no-op: for every tree whose stored
balances all lie in `{-1, 0, 1}` and every integer `v` held by no node,
`remove` returns the tree unchanged (shape, values and stored balances), and
`removeNode` reports `heightDecreased = false`. -/
theorem remove_absent (t : Tree) (v : Int) (hs : balancesSettled t.root)
    (hv : v ∉ inorderAscending t.root) :
    t.remove v = some t ∧ ∀ hd, removeNode t.root v hd = some (t.root, false) := by
  refine ⟨?_, fun hd => removeNode_absent t.root v hd hs hv⟩
  simp only [remove, removeNode_absent t.root v false hs hv]

/-- An instance of C7: removing 5 from the tree with root 2 and leaves 1, 3. -/
theorem remove_absent_witness :
    balancesSettled (Node.mk (Node.mk null 1 null 0) 2 (Node.mk null 3 null 0) 0) ∧
    (5 : Int) ∉ inorderAscending (Node.mk (Node.mk null 1 null 0) 2 (Node.mk null 3 null 0) 0) ∧
    (remove ⟨Node.mk (Node.mk null 1 null 0) 2 (Node.mk null 3 null 0) 0⟩ 5 =
        some ⟨Node.mk (Node.mk null 1 null 0) 2 (Node.mk null 3 null 0) 0⟩ ∧
      ∀ hd, removeNode (Node.mk (Node.mk null 1 null 0) 2 (Node.mk null 3 null 0) 0) 5 hd =
        some (Node.mk (Node.mk null 1 null 0) 2 (Node.mk null 3 null 0) 0, false)) :=
  ⟨by decide, by decide,
    remove_absent ⟨Node.mk (Node.mk null 1 null 0) 2 (Node.mk null 3 null 0) 0⟩ 5
      (by decide) (by decide)⟩

/-- On a BST-ordered tree with settled balances, `addNode` of a value that is
already there, started with `heightIncreased = false`, hands the tree back
untouched and leaves the flag `false`. -/
theorem addNode_present (t : Node) (v : Int) (hb : bstOrdered t) (hs : balancesSettled t)
    (hv : v ∈ inorderAscending t) : addNode t v false = some (t, false) := by
  induction t with
  | null => simp [inorderAscending] at hv
  | mk l x r b ihl ihr =>
    obtain ⟨hl, hr, bl, br⟩ := hb
    obtain ⟨hbal, sl, sr⟩ := hs
    have n2 : b ≠ 2 := by omega
    have nm2 : b ≠ -2 := by omega
    simp only [inorder_mk, List.mem_append, List.mem_cons] at hv
    simp only [addNode]
    split_ifs with h1 h2
    · have hvr : v ∈ inorderAscending r := by
        rcases hv with hv | hv | hv
        · exact absurd (hl v hv) (not_lt.mpr h1.le)
        · exact absurd hv h1.ne'
        · exact hv
      simp [ihr br sr hvr, addFinish, rebalance_of_ne l x r n2 nm2]
    · have hvl : v ∈ inorderAscending l := by
        rcases hv with hv | hv | hv
        · exact hv
        · exact absurd hv h2.ne
        · exact absurd (hr v hv) (not_lt.mpr h2.le)
      simp [ihl bl sl hvl, addFinish, rebalance_of_ne l x r n2 nm2]
    · simp [addFinish, rebalance_of_ne l x r n2 nm2]

/-- C8.  Adding a value that is already present is a silent no-op: for every
BST-ordered tree whose stored balances all lie in `{-1, 0, 1}` and every value
`v` held by a node, `add` returns the tree unchanged, and `addNode` started
with `heightIncreased = false` leaves `heightIncreased = false`. -/
theorem add_present (t : Tree) (v : Int) (hb : bstOrdered t.root)
    (hs : balancesSettled t.root) (hv : v ∈ inorderAscending t.root) :
    t.add v = some t ∧ addNode t.root v false = some (t.root, false) := by
  refine ⟨?_, addNode_present t.root v hb hs hv⟩
  simp only [add, addNode_present t.root v hb hs hv]

/-- An instance of C8: adding 3 again to the tree with root 2 and leaves 1, 3. -/
theorem add_present_witness :
    bstOrdered (Node.mk (Node.mk null 1 null 0) 2 (Node.mk null 3 null 0) 0) ∧
    balancesSettled (Node.mk (Node.mk null 1 null 0) 2 (Node.mk null 3 null 0) 0) ∧
    (3 : Int) ∈ inorderAscending (Node.mk (Node.mk null 1 null 0) 2 (Node.mk null 3 null 0) 0) ∧
    (add ⟨Node.mk (Node.mk null 1 null 0) 2 (Node.mk null 3 null 0) 0⟩ 3 =
        some ⟨Node.mk (Node.mk null 1 null 0) 2 (Node.mk null 3 null 0) 0⟩ ∧
      addNode (Node.mk (Node.mk null 1 null 0) 2 (Node.mk null 3 null 0) 0) 3 false =
        some (Node.mk (Node.mk null 1 null 0) 2 (Node.mk null 3 null 0) 0, false)) :=
  ⟨by decide, by decide, by decide,
    add_present ⟨Node.mk (Node.mk null 1 null 0) 2 (Node.mk null 3 null 0) 0⟩ 3
      (by decide) (by decide) (by decide)⟩

/-- C9.  Ascending insertion of three values: for `a < b < c`, adding `a`, `b`,
`c` in that order to the empty tree first builds the right-leaning chain with
root `a`; the third insertion raises the root's balance to `+2`, one `rotateLL`
is applied, and the result has root `b` with stored balance 0 whose children
are the leaves `a` and `c`, both with stored balance 0. -/
theorem addAll_ascending_three (a b c : Int) (hab : a < b) (hbc : b < c) :
    addAll empty [a, b] = some ⟨Node.mk null a (Node.new b) 1⟩ ∧
    addNode (Node.new b) c false = some (Node.mk null b (Node.new c) 1, true) ∧
    rebalance (Node.mk null a (Node.mk null b (Node.new c) 1) 2) =
      rotateLL (Node.mk null a (Node.mk null b (Node.new c) 1) 2) ∧
    addAll empty [a, b, c] =
      some ⟨Node.mk (Node.mk null a null 0) b (Node.mk null c null 0) 0⟩ := by
  have hac : a < c := lt_trans hab hbc
  refine ⟨?_, ?_, ?_, ?_⟩
  · simp [addAll, add, addNode, addFinish, rebalance, empty, Node.new, hab]
  · simp [addNode, addFinish, rebalance, Node.new, hbc]
  · simp [rebalance, Node.new]
  · simp [addAll, add, addNode, addFinish, rebalance, rotateLL, empty, Node.new, hab, hbc, hac]

/-- The instance 1, 2, 3 of C9: root 2 with balance 0. -/
theorem addAll_ascending_three_witness :
    (1 : Int) < 2 ∧ (2 : Int) < 3 ∧
    (addAll empty [1, 2] = some ⟨Node.mk null 1 (Node.new 2) 1⟩ ∧
    addNode (Node.new 2) 3 false = some (Node.mk null 2 (Node.new 3) 1, true) ∧
    rebalance (Node.mk null 1 (Node.mk null 2 (Node.new 3) 1) 2) =
      rotateLL (Node.mk null 1 (Node.mk null 2 (Node.new 3) 1) 2) ∧
    addAll empty [1, 2, 3] =
      some ⟨Node.mk (Node.mk null 1 null 0) 2 (Node.mk null 3 null 0) 0⟩) :=
  ⟨by decide, by decide, addAll_ascending_three 1 2 3 (by decide) (by decide)⟩

/-- C10 (code defect).  The claim: adding pairwise distinct values and then
removing them all in any order leaves the empty tree.  For the values
1, 2, 4, 5, 6, 3 removed in the order 1, 2, 3, 5, 4, 6 the run does not reach
the end: after `remove 3` node 4 is a leaf storing balance `+1`, and `remove 5`
makes `rebalance` call `rotateLR` on a root of balance `-2` whose left child 4
has no right child. -/
theorem insertAllRemoveAll_reads_null_link :
    [1, 2, 4, 5, 6, (3 : Int)].Nodup ∧
    List.Perm [1, 2, 3, 5, 4, (6 : Int)] [1, 2, 4, 5, 6, 3] ∧
    insertAllRemoveAll [1, 2, 4, 5, 6, 3] [1, 2, 3] =
      some ⟨Node.mk (Node.mk null 4 null 1) 5 (Node.mk null 6 null 0) (-1)⟩ ∧
    remove ⟨Node.mk (Node.mk null 4 null 1) 5 (Node.mk null 6 null 0) (-1)⟩ 5 = none ∧
    insertAllRemoveAll [1, 2, 4, 5, 6, 3] [1, 2, 3, 5, 4, 6] = none := by
  refine ⟨by decide, by decide, by decide, by decide, by decide⟩

/-! ## Stored balances stay settled -/

/-- The dispatcher hands back settled balances when the subtrees are settled
and the root balance is between `-2` and `2`. -/
theorem rebalance_settled {l r t2 : Node} {x b : Int} (sl : balancesSettled l)
    (sr : balancesSettled r) (hb : -2 ≤ b ∧ b ≤ 2)
    (e : rebalance (Node.mk l x r b) = some t2) : balancesSettled t2 := by
  simp only [rebalance] at e
  split_ifs at e with h2 hm2
  · cases r with
    | null => simp at e
    | mk rl rv rr rb =>
      obtain ⟨⟨hr1, hr2⟩, srl, srr⟩ := sr
      simp only at e
      split_ifs at e with hrb
      · simp only [rotateLL, Option.some.injEq] at e
        subst e
        exact ⟨⟨by omega, by omega⟩, ⟨⟨by omega, by omega⟩, sl, srl⟩, srr⟩
      · cases rl with
        | null => simp [rotateRL] at e
        | mk gl gv gr gb =>
          obtain ⟨⟨hg1, hg2⟩, sgl, sgr⟩ := srl
          simp only [rotateRL, Option.some.injEq] at e
          subst e
          refine ⟨⟨by omega, by omega⟩, ⟨⟨?_, ?_⟩, sl, sgl⟩, ⟨⟨?_, ?_⟩, sgr, srr⟩⟩
          · have := min_le_right gb 0; omega
          · have := le_min hg1 (by omega : (-1 : Int) ≤ 0); omega
          · have := max_le hg2 (by omega : (0 : Int) ≤ 1); omega
          · have := le_max_right gb 0; omega
  · cases l with
    | null => simp at e
    | mk ll lv lr lb =>
      obtain ⟨⟨hl1, hl2⟩, sll, slr⟩ := sl
      simp only at e
      split_ifs at e with hlb
      · simp only [rotateRR, Option.some.injEq] at e
        subst e
        exact ⟨⟨by omega, by omega⟩, sll, ⟨⟨by omega, by omega⟩, slr, sr⟩⟩
      · cases lr with
        | null => simp [rotateLR] at e
        | mk gl gv gr gb =>
          obtain ⟨⟨hg1, hg2⟩, sgl, sgr⟩ := slr
          simp only [rotateLR, Option.some.injEq] at e
          subst e
          refine ⟨⟨by omega, by omega⟩, ⟨⟨?_, ?_⟩, sll, sgl⟩, ⟨⟨?_, ?_⟩, sgr, sr⟩⟩
          · have := min_le_right gb 0; omega
          · have := le_min hg1 (by omega : (-1 : Int) ≤ 0); omega
          · have := max_le hg2 (by omega : (0 : Int) ≤ 1); omega
          · have := le_max_right gb 0; omega
  · simp only [Option.some.injEq] at e
    subst e
    exact ⟨⟨by omega, by omega⟩, sl, sr⟩

/-- A completed `removeNode` keeps settled balances settled. -/
theorem removeNode_settled {t t2 : Node} {v : Int} {hd h : Bool}
    (e : removeNode t v hd = some (t2, h)) (hs : balancesSettled t) :
    balancesSettled t2 := by
  induction t generalizing t2 h hd v with
  | null =>
    simp only [removeNode, Option.some.injEq, Prod.mk.injEq] at e
    obtain ⟨e1, -⟩ := e
    subst e1
    trivial
  | mk l x r b ihl ihr =>
    obtain ⟨hb, sl, sr⟩ := hs
    rcases removeNode_mk_cases e with ⟨-, r2, h2, e1, e2⟩ | ⟨-, l2, h2, e1, e2⟩ |
      ⟨-, -, -, rfl, -⟩ | ⟨-, -, -, rfl, -⟩ | ⟨-, -, -, rfl, -⟩ |
      ⟨-, -, -, s, r2, h2, -, e1, e2⟩
    · exact rebalance_settled sl (ihr e1 sr) (by split_ifs <;> omega) (shrunkRight_some e2)
    · exact rebalance_settled (ihl e1 sl) sr (by split_ifs <;> omega) (shrunkLeft_some e2)
    · trivial
    · exact sl
    · exact sr
    · exact rebalance_settled sl (ihr e1 sr) (by split_ifs <;> omega) (shrunkRight_some e2)

theorem apply_settled {t t2 : Tree} {op : Op} (e : t.apply op = some t2)
    (hs : balancesSettled t.root) : balancesSettled t2.root := by
  cases op with
  | add v =>
    obtain ⟨r, h, e1, s1, -⟩ := addNode_settled t.root v hs
    simp only [apply, add, e1, Option.some.injEq] at e
    subst e
    exact s1
  | remove v =>
    simp only [apply, remove] at e
    cases hr : removeNode t.root v false with
    | none => simp [hr] at e
    | some p =>
      obtain ⟨r, h⟩ := p
      simp only [hr, Option.some.injEq] at e
      subst e
      exact removeNode_settled hr hs

theorem runFrom_settled (ops : List Op) {t t2 : Tree} (e : runFrom t ops = some t2)
    (hs : balancesSettled t.root) : balancesSettled t2.root := by
  induction ops generalizing t with
  | nil =>
    simp only [runFrom, Option.some.injEq] at e
    subst e
    exact hs
  | cons op ops ih =>
    simp only [runFrom] at e
    cases ha : t.apply op with
    | none => simp [ha] at e
    | some t3 =>
      simp only [ha] at e
      exact ih e (apply_settled ha hs)

/-- C11 as stated fails: every stored balance of the tree with root 2 (balance
`+1`), left leaf 1 and right leaf 3 storing balance `-1` lies in `{-1, 0, 1}`,
yet `remove 1` returns no tree.  The root's balance rises to `+2`, `rebalance`
trusts the stored `-1` of node 3 and calls `rotateRL`, which reads through the
null left link of node 3. -/
theorem remove_settled_reads_null :
    balancesSettled (Node.mk (Node.mk null 1 null 0) 2 (Node.mk null 3 null (-1)) 1) ∧
    remove ⟨Node.mk (Node.mk null 1 null 0) 2 (Node.mk null 3 null (-1)) 1⟩ 1 = none := by
  refine ⟨by decide, by decide⟩

/-- C11 (amended).  If every stored balance of `t` lies in `{-1, 0, 1}`, then
for every integer `v`: `add` completes and every stored balance of its result
lies in `{-1, 0, 1}`, and whenever `remove` completes every stored balance of
its result lies in `{-1, 0, 1}`.  Hence after every completed call in any
sequence of `add`/`remove` calls from the empty tree no node stores `+2` or
`-2`. -/
theorem stored_balances_stay_settled :
    (∀ (t : Tree) (v : Int), balancesSettled t.root →
      (∃ t2, t.add v = some t2 ∧ balancesSettled t2.root) ∧
      (∀ t2, t.remove v = some t2 → balancesSettled t2.root)) ∧
    (∀ (ops : List Op) (t2 : Tree), run ops = some t2 → balancesSettled t2.root) := by
  refine ⟨fun t v hs => ⟨?_, ?_⟩, fun ops t2 e => ?_⟩
  · obtain ⟨r, h, e1, s1, -⟩ := addNode_settled t.root v hs
    exact ⟨⟨r⟩, by simp only [add, e1], s1⟩
  · intro t2 e
    have ha : t.apply (Op.remove v) = some t2 := e
    exact apply_settled ha hs
  · exact runFrom_settled ops e (by simp [empty, balancesSettled])

/-- An instance of the amended C11: on the tree with root 2 and leaves 1, 3,
`add 4` and `remove 1` both complete with settled balances, and so does the run
`add 1, add 2, add 3, remove 2`. -/
theorem stored_balances_stay_settled_witness :
    balancesSettled (Node.mk (Node.mk null 1 null 0) 2 (Node.mk null 3 null 0) 0) ∧
    (∃ t2, add ⟨Node.mk (Node.mk null 1 null 0) 2 (Node.mk null 3 null 0) 0⟩ 4 = some t2 ∧
      balancesSettled t2.root) ∧
    balancesSettled (Node.mk null 2 (Node.mk null 3 null 0) 1) ∧
    balancesSettled (Node.mk (Node.mk null 1 null 0) 3 null (-1)) := by
  have h := stored_balances_stay_settled
  refine ⟨by decide, (h.1 _ 4 (by decide)).1, ?_, ?_⟩
  · exact (h.1 ⟨Node.mk (Node.mk null 1 null 0) 2 (Node.mk null 3 null 0) 0⟩ 1 (by decide)).2
      ⟨Node.mk null 2 (Node.mk null 3 null 0) 1⟩ (by decide)
  · exact h.2 [Op.add 1, Op.add 2, Op.add 3, Op.remove 2]
      ⟨Node.mk (Node.mk null 1 null 0) 3 null (-1)⟩ (by decide)

/-! ## The rotations one by one -/

/-- C13 (code defect).  The claim: `rotateRL` sets `current.balance =
-max(g, 0)` and `child.balance = -min(g, 0)`, with `g` the grandchild's balance
before the call.  The code assigns them the other way round: `current->balance
= -min(g, 0)` and `child->balance = -max(g, 0)`.  On the node 2 (balance `+2`)
with left leaf 1 and right child 5 (balance `-1`) whose left child is the
grandchild 3 (balance `g = +1`, right leaf 4) and whose right child is the leaf
6, the grandchild becomes the root with `current` to its left, `child` to its
right and balance 0 as claimed, but `current` stores `0` where the claim has
`-1` and `child` stores `-1` where the claim has `0`.  The claimed balances are
the exact ones for the rotated shape, the stored ones are not. -/
theorem rotateRL_swaps_balances :
    rotateRL (Node.mk (Node.mk null 1 null 0) 2
        (Node.mk (Node.mk null 3 (Node.mk null 4 null 0) 1) 5 (Node.mk null 6 null 0) (-1)) 2) =
      some (Node.mk (Node.mk (Node.mk null 1 null 0) 2 null 0) 3
        (Node.mk (Node.mk null 4 null 0) 5 (Node.mk null 6 null 0) (-1)) 0) ∧
    (0 : Int) ≠ -(max 1 0) ∧ (-1 : Int) ≠ -(min 1 0) ∧
    balanceExact (Node.mk (Node.mk null 1 null 0) 2
        (Node.mk (Node.mk null 3 (Node.mk null 4 null 0) 1) 5 (Node.mk null 6 null 0) (-1)) 2) ∧
    balanceExact (Node.mk (Node.mk (Node.mk null 1 null 0) 2 null (-(max 1 0))) 3
        (Node.mk (Node.mk null 4 null 0) 5 (Node.mk null 6 null 0) (-(min 1 0))) 0) ∧
    ¬ balanceExact (Node.mk (Node.mk (Node.mk null 1 null 0) 2 null 0) 3
        (Node.mk (Node.mk null 4 null 0) 5 (Node.mk null 6 null 0) (-1)) 0) := by
  refine ⟨by decide, by decide, by decide, by decide, by decide, by decide⟩

/-- C14.  Rotations preserve content and order.  Wherever the required child
(and for the double rotations the grandchild) exists, each of `rotateLL`,
`rotateRR`, `rotateRL`, `rotateLR` completes, hangs the subtrees below the moved
nodes back unchanged, and returns a tree with the same in-order sequence; and
whatever `rebalance` returns has the same in-order sequence as its argument. -/
theorem rotations_keep_inorder :
    (∀ (l : Node) (v : Int) (cl : Node) (cv : Int) (cr : Node) (cb b : Int),
      ∃ b1 b2, rotateLL (Node.mk l v (Node.mk cl cv cr cb) b) =
          some (Node.mk (Node.mk l v cl b1) cv cr b2) ∧
        inorderAscending (Node.mk (Node.mk l v cl b1) cv cr b2) =
          inorderAscending (Node.mk l v (Node.mk cl cv cr cb) b)) ∧
    (∀ (cl : Node) (cv : Int) (cr : Node) (cb v : Int) (r : Node) (b : Int),
      ∃ b1 b2, rotateRR (Node.mk (Node.mk cl cv cr cb) v r b) =
          some (Node.mk cl cv (Node.mk cr v r b1) b2) ∧
        inorderAscending (Node.mk cl cv (Node.mk cr v r b1) b2) =
          inorderAscending (Node.mk (Node.mk cl cv cr cb) v r b)) ∧
    (∀ (l : Node) (v : Int) (gl : Node) (gv : Int) (gr : Node) (gb cv : Int) (cr : Node)
        (cb b : Int),
      ∃ b1 b2 b3, rotateRL (Node.mk l v (Node.mk (Node.mk gl gv gr gb) cv cr cb) b) =
          some (Node.mk (Node.mk l v gl b1) gv (Node.mk gr cv cr b2) b3) ∧
        inorderAscending (Node.mk (Node.mk l v gl b1) gv (Node.mk gr cv cr b2) b3) =
          inorderAscending (Node.mk l v (Node.mk (Node.mk gl gv gr gb) cv cr cb) b)) ∧
    (∀ (cl : Node) (cv : Int) (gl : Node) (gv : Int) (gr : Node) (gb cb v : Int) (r : Node)
        (b : Int),
      ∃ b1 b2 b3, rotateLR (Node.mk (Node.mk cl cv (Node.mk gl gv gr gb) cb) v r b) =
          some (Node.mk (Node.mk cl cv gl b1) gv (Node.mk gr v r b2) b3) ∧
        inorderAscending (Node.mk (Node.mk cl cv gl b1) gv (Node.mk gr v r b2) b3) =
          inorderAscending (Node.mk (Node.mk cl cv (Node.mk gl gv gr gb) cb) v r b)) ∧
    (∀ t t2 : Node, rebalance t = some t2 → inorderAscending t2 = inorderAscending t) := by
  refine ⟨?_, ?_, ?_, ?_, fun t t2 e => rebalance_inorder e⟩
  · intro l v cl cv cr cb b
    exact ⟨_, _, rfl, by simp [inorderAscending]⟩
  · intro cl cv cr cb v r b
    exact ⟨_, _, rfl, by simp [inorderAscending]⟩
  · intro l v gl gv gr gb cv cr cb b
    exact ⟨_, _, _, rfl, by simp [inorderAscending]⟩
  · intro cl cv gl gv gr gb cb v r b
    exact ⟨_, _, _, rfl, by simp [inorderAscending]⟩

/-- An instance of C14: `rebalance` on the right-leaning chain 1, 2, 3 returns
a tree with in-order sequence 1, 2, 3. -/
theorem rotations_keep_inorder_witness :
    rebalance (Node.mk null 1 (Node.mk null 2 (Node.mk null 3 null 0) 1) 2) =
      some (Node.mk (Node.mk null 1 null 0) 2 (Node.mk null 3 null 0) 0) ∧
    inorderAscending (Node.mk (Node.mk null 1 null 0) 2 (Node.mk null 3 null 0) 0) =
      inorderAscending (Node.mk null 1 (Node.mk null 2 (Node.mk null 3 null 0) 1) 2) :=
  ⟨by decide, rotations_keep_inorder.2.2.2.2 _ _ (by decide)⟩

theorem mirror_mirror (t : Node) : mirror (mirror t) = t := by
  induction t with
  | null => rfl
  | mk l v r b ihl ihr => simp [mirror, ihl, ihr]

/-- C16.  Mirror symmetry of the rotations: with `mirror` swapping left and
right at every node and negating every stored balance, `rotateRR` is the mirror
image of `rotateLL` on the mirrored tree and `rotateLR` is the mirror image of
`rotateRL` on the mirrored tree, balances included; where one side reads a
missing child or grandchild, so does the other. -/
theorem rotations_mirror (t : Node) :
    rotateRR t = (rotateLL (mirror t)).map mirror ∧
    rotateLR t = (rotateRL (mirror t)).map mirror := by
  constructor
  · cases t with
    | null => rfl
    | mk l v r b =>
      cases l with
      | null => cases r <;> rfl
      | mk cl cv cr cb =>
        simp only [rotateRR, mirror, rotateLL, Option.map_some', mirror_mirror, neg_neg,
          Option.some.injEq, Node.mk.injEq, true_and, and_true]
        omega
  · cases t with
    | null => rfl
    | mk l v r b =>
      cases l with
      | null => cases r <;> rfl
      | mk cl cv cr cb =>
        cases cr with
        | null => cases cl <;> rfl
        | mk gl gv gr gb =>
          simp only [rotateLR, mirror, rotateRL, Option.map_some', mirror_mirror, neg_neg,
            Option.some.injEq, Node.mk.injEq, true_and, and_true, neg_zero]
          constructor
          · rcases le_total gb 0 with h | h
            · rw [min_eq_left h, max_eq_left (by omega : (0 : Int) ≤ -gb)]
            · rw [min_eq_right h, max_eq_right (by omega : -gb ≤ (0 : Int))]; simp
          · rcases le_total gb 0 with h | h
            · rw [max_eq_right h, min_eq_right (by omega : (0 : Int) ≤ -gb)]; simp
            · rw [max_eq_left h, min_eq_left (by omega : -gb ≤ (0 : Int))]

/-- C17.  The single rotations reset balances correctly without recomputing
heights.  If the subtrees of `current` carry exact stored balances, the right
subtree is two levels higher than the left one and the right child's balance
is `0` or `+1`, then `rotateLL` returns the child as the new root with
`current` as its left child, the three subtrees hung back unchanged, the
child's balance lowered by one and `current`'s balance set to its negation;
these two stored balances equal the right height minus the left height of the
two moved nodes, and every stored balance of the result is exact.
Symmetrically for `rotateRR` when the left subtree is two levels higher and the
left child's balance is `0` or `-1`. -/
theorem single_rotations_exact :
    (∀ (l : Node) (v : Int) (rl : Node) (rv : Int) (rr : Node) (rb b : Int),
      balanceExact l → balanceExact (Node.mk rl rv rr rb) →
      (height (Node.mk rl rv rr rb) : Int) - (height l : Int) = 2 → (rb = 0 ∨ rb = 1) →
      ∃ b1 b2, rotateLL (Node.mk l v (Node.mk rl rv rr rb) b) =
          some (Node.mk (Node.mk l v rl b1) rv rr b2) ∧
        b2 = rb - 1 ∧ b1 = -b2 ∧
        b1 = (height rl : Int) - (height l : Int) ∧
        b2 = (height rr : Int) - (height (Node.mk l v rl b1) : Int) ∧
        balanceExact (Node.mk (Node.mk l v rl b1) rv rr b2)) ∧
    (∀ (ll : Node) (lv : Int) (lr : Node) (lb v : Int) (r : Node) (b : Int),
      balanceExact (Node.mk ll lv lr lb) → balanceExact r →
      (height r : Int) - (height (Node.mk ll lv lr lb) : Int) = -2 → (lb = 0 ∨ lb = -1) →
      ∃ b1 b2, rotateRR (Node.mk (Node.mk ll lv lr lb) v r b) =
          some (Node.mk ll lv (Node.mk lr v r b1) b2) ∧
        b2 = lb + 1 ∧ b1 = -b2 ∧
        b1 = (height r : Int) - (height lr : Int) ∧
        b2 = (height (Node.mk lr v r b1) : Int) - (height ll : Int) ∧
        balanceExact (Node.mk ll lv (Node.mk lr v r b1) b2)) := by
  constructor
  · intro l v rl rv rr rb b el er hh hrb
    obtain ⟨hx, erl, err⟩ := er
    have h1 : -(rb - 1) = (height rl : Int) - (height l : Int) := by
      simp only [height] at hh ⊢
      omega
    have h2 : rb - 1 = (height rr : Int) - (height (Node.mk l v rl (-(rb - 1))) : Int) := by
      simp only [height] at hh ⊢
      omega
    exact ⟨-(rb - 1), rb - 1, rfl, rfl, rfl, h1, h2, h2, ⟨h1, el, erl⟩, err⟩
  · intro ll lv lr lb v r b el er hh hlb
    obtain ⟨hx, ell, elr⟩ := el
    have h1 : -(lb + 1) = (height r : Int) - (height lr : Int) := by
      simp only [height] at hh ⊢
      omega
    have h2 : lb + 1 = (height (Node.mk lr v r (-(lb + 1))) : Int) - (height ll : Int) := by
      simp only [height] at hh ⊢
      omega
    exact ⟨-(lb + 1), lb + 1, rfl, rfl, rfl, h1, h2, h2, ell, ⟨h1, elr, er⟩⟩

/-- An instance of C17: `rotateLL` on the right-leaning chain 1, 2, 3, whose
right child 2 has balance `+1`, returns 2 over the leaves 1 and 3 with both
moved nodes at balance 0. -/
theorem single_rotations_exact_witness :
    balanceExact null ∧ balanceExact (Node.mk null 2 (Node.mk null 3 null 0) 1) ∧
    (height (Node.mk null 2 (Node.mk null 3 null 0) 1) : Int) - (height null : Int) = 2 ∧
    rotateLL (Node.mk null 1 (Node.mk null 2 (Node.mk null 3 null 0) 1) 2) =
      some (Node.mk (Node.mk null 1 null 0) 2 (Node.mk null 3 null 0) 0) ∧
    ∃ b1 b2, rotateLL (Node.mk null 1 (Node.mk null 2 (Node.mk null 3 null 0) 1) 2) =
        some (Node.mk (Node.mk null 1 null b1) 2 (Node.mk null 3 null 0) b2) ∧
      b2 = 1 - 1 ∧ b1 = -b2 ∧
      b1 = (height null : Int) - (height null : Int) ∧
      b2 = (height (Node.mk null 3 null 0) : Int) - (height (Node.mk null 1 null b1) : Int) ∧
      balanceExact (Node.mk (Node.mk null 1 null b1) 2 (Node.mk null 3 null 0) b2) :=
  ⟨by decide, by decide, by decide, by decide,
    single_rotations_exact.1 null 1 null 2 (Node.mk null 3 null 0) 1 2 (by decide) (by decide)
      (by decide) (Or.inr rfl)⟩

/-- C15.  The dispatcher restores the balance bound.  If both subtrees of a
node are height-balanced at every node and carry exact stored balances, and the
node's own stored balance is exact and equal to `+2` or `-2`, then `rebalance`
completes, its result is height-balanced at every node, and the result's height
is the node's height or one less. -/
theorem rebalance_restores_balance (l : Node) (v : Int) (r : Node) (b : Int)
    (hl : heightBalanced l) (hr : heightBalanced r) (el : balanceExact l)
    (er : balanceExact r) (hx : b = (height r : Int) - (height l : Int))
    (hb : b = 2 ∨ b = -2) :
    ∃ t2, rebalance (Node.mk l v r b) = some t2 ∧ heightBalanced t2 ∧
      (height t2 = height (Node.mk l v r b) ∨ height t2 + 1 = height (Node.mk l v r b)) := by
  rcases hb with hb | hb
  · subst hb
    cases r with
    | null => simp only [height] at hx; omega
    | mk rl rv rr rb =>
      obtain ⟨hxr, erl, err⟩ := er
      obtain ⟨hbr, hrl, hrr⟩ := hr
      by_cases hrb : rb ≥ 0
      · refine ⟨Node.mk (Node.mk l v rl (-(rb - 1))) rv rr (rb - 1), ?_, ?_, ?_⟩
        · simp [rebalance, rotateLL, hrb]
        · refine ⟨?_, ⟨?_, hl, hrl⟩, hrr⟩
          · simp only [height] at hx ⊢; omega
          · simp only [height] at hx ⊢; omega
        · simp only [height] at hx ⊢; omega
      · cases rl with
        | null => simp only [height] at hxr; omega
        | mk gl gv gr gb =>
          obtain ⟨hbg, hgl, hgr⟩ := hrl
          refine ⟨Node.mk (Node.mk l v gl (-(min gb 0))) gv (Node.mk gr rv rr (-(max gb 0))) 0,
            ?_, ?_, ?_⟩
          · simp [rebalance, rotateRL, hrb]
          · refine ⟨?_, ⟨?_, hl, hgl⟩, ⟨?_, hgr, hrr⟩⟩
            · simp only [height] at hx hxr hbr ⊢; omega
            · simp only [height] at hx hxr hbr ⊢; omega
            · simp only [height] at hx hxr hbr ⊢; omega
          · simp only [height] at hx hxr hbr ⊢; omega
  · subst hb
    cases l with
    | null => simp only [height] at hx; omega
    | mk ll lv lr lb =>
      obtain ⟨hxl, ell, elr⟩ := el
      obtain ⟨hbl, hll, hlr⟩ := hl
      by_cases hlb : lb ≤ 0
      · refine ⟨Node.mk ll lv (Node.mk lr v r (-(lb + 1))) (lb + 1), ?_, ?_, ?_⟩
        · simp [rebalance, rotateRR, hlb]
        · refine ⟨?_, hll, ⟨?_, hlr, hr⟩⟩
          · simp only [height] at hx ⊢; omega
          · simp only [height] at hx ⊢; omega
        · simp only [height] at hx ⊢; omega
      · cases lr with
        | null => simp only [height] at hxl; omega
        | mk gl gv gr gb =>
          obtain ⟨hbg, hgl, hgr⟩ := hlr
          refine ⟨Node.mk (Node.mk ll lv gl (-(min gb 0))) gv (Node.mk gr v r (-(max gb 0))) 0,
            ?_, ?_, ?_⟩
          · simp [rebalance, rotateLR, hlb]
          · refine ⟨?_, ⟨?_, hll, hgl⟩, ⟨?_, hgr, hr⟩⟩
            · simp only [height] at hx hxl hbl ⊢; omega
            · simp only [height] at hx hxl hbl ⊢; omega
            · simp only [height] at hx hxl hbl ⊢; omega
          · simp only [height] at hx hxl hbl ⊢; omega

/-- An instance of C15: the node 2 of balance `+2` whose right child 5 leans
left onto the grandchild 3, rebalanced by the double rotation. -/
theorem rebalance_restores_balance_witness :
    heightBalanced (Node.mk null 1 null 0) ∧
    heightBalanced (Node.mk (Node.mk null 3 (Node.mk null 4 null 0) 1) 5
      (Node.mk null 6 null 0) (-1)) ∧
    ∃ t2, rebalance (Node.mk (Node.mk null 1 null 0) 2
        (Node.mk (Node.mk null 3 (Node.mk null 4 null 0) 1) 5 (Node.mk null 6 null 0) (-1)) 2) =
        some t2 ∧ heightBalanced t2 ∧
      (height t2 = height (Node.mk (Node.mk null 1 null 0) 2
        (Node.mk (Node.mk null 3 (Node.mk null 4 null 0) 1) 5 (Node.mk null 6 null 0) (-1)) 2) ∨
      height t2 + 1 = height (Node.mk (Node.mk null 1 null 0) 2
        (Node.mk (Node.mk null 3 (Node.mk null 4 null 0) 1) 5 (Node.mk null 6 null 0) (-1)) 2)) :=
  ⟨by decide, by decide,
    rebalance_restores_balance (Node.mk null 1 null 0) 2
      (Node.mk (Node.mk null 3 (Node.mk null 4 null 0) 1) 5 (Node.mk null 6 null 0) (-1)) 2
      (by decide) (by decide) (by decide) (by decide) (by decide) (Or.inl rfl)⟩

/-! ## The height signal of insertion -/

/-- On a non-null node `addNode` is `addDescend` followed by `addFinish`. -/
theorem addNode_descend_finish (l : Node) (x : Int) (r : Node) (b v : Int) (hi : Bool) :
    addNode (Node.mk l x r b) v hi =
      match addDescend (Node.mk l x r b) v hi with
      | none => none
      | some (c, h) => addFinish c h := by
  simp only [addNode, addDescend]
  split_ifs
  · cases addNode r v hi with
    | none => rfl
    | some p => rfl
  · cases addNode l v hi with
    | none => rfl
    | some p => rfl
  · rfl

/-- On a tree with exact, settled balances a completed `addNode`, started with
`heightIncreased = false`, returns a tree one level higher exactly when it
reports `true` and of the same height otherwise; a reported increase comes
with an exact root balance, non-zero unless the tree was empty; and when the
node handed to `rebalance` has balance `+2` or `-2` the result has root
balance 0 and the old height. -/
theorem addNode_height {t t2 : Node} {v : Int} {h : Bool}
    (e : addNode t v false = some (t2, h)) (he : balanceExact t) (hs : balancesSettled t) :
    height t2 = height t + (if h then 1 else 0) ∧
    (h = true → ∃ l x r b, t2 = Node.mk l x r b ∧
      b = (height r : Int) - (height l : Int) ∧ (t ≠ null → b ≠ 0)) ∧
    (∀ c hc, addDescend t v false = some (c, hc) →
      (balanceOf c = some 2 ∨ balanceOf c = some (-2)) →
      (∃ l x r, t2 = Node.mk l x r 0) ∧ height t2 = height t) := by
  induction t generalizing t2 h with
  | null =>
    simp only [addNode, Option.some.injEq, Prod.mk.injEq] at e
    obtain ⟨rfl, rfl⟩ := e
    refine ⟨by simp [Node.new, height], fun _ => ⟨null, v, null, 0, rfl, by simp [height], ?_⟩, ?_⟩
    · intro hn; exact absurd rfl hn
    · intro c hc hd; simp [addDescend] at hd
  | mk l x r b ihl ihr =>
    obtain ⟨hx, el, er⟩ := he
    obtain ⟨⟨hb1, hb2⟩, sl, sr⟩ := hs
    rcases addNode_mk_cases e with ⟨hxv, r2, h2, e1, e2⟩ | ⟨hxv, l2, h2, e1, e2⟩ | ⟨hxv, e2⟩
    · have hd : addDescend (Node.mk l x r b) v false =
          some (Node.mk l x r2 (if h2 then b + 1 else b), h2) := by
        simp [addDescend, hxv, e1]
      obtain ⟨ih1, ih2, -⟩ := ihr e1 er sr
      obtain ⟨r3, h3, e3, s3, -⟩ := addNode_settled r v sr
      rw [e1] at e3
      simp only [Option.some.injEq, Prod.mk.injEq] at e3
      obtain ⟨rfl, rfl⟩ := e3
      rw [hd]
      cases h2 with
      | false =>
        have n2 : b ≠ 2 := by omega
        have nm2 : b ≠ -2 := by omega
        simp [addFinish, rebalance_of_ne l x r2 n2 nm2] at e2
        obtain ⟨rfl, rfl⟩ := e2
        refine ⟨by simp only [height] at ih1 ⊢; simp at ih1 ⊢; omega, by simp, ?_⟩
        intro c hc hcc hbal
        simp only [Option.some.injEq, Prod.mk.injEq] at hcc
        obtain ⟨rfl, -⟩ := hcc
        simp [balanceOf] at hbal
        omega
      | true =>
        obtain ⟨rl, rv, rr, rb, rfl, hrb, hnz⟩ := ih2 rfl
        obtain ⟨⟨hs1, hs2⟩, srl, srr⟩ := s3
        simp only [if_true] at e2 ih1 ⊢
        by_cases hb : b = 1
        · subst hb
          have hrn : r ≠ null := by
            apply ne_null_of_height_pos; omega
          have hnz2 := hnz hrn
          by_cases hpos : rb ≥ 0
          · have hrb1 : rb = 1 := by omega
            subst hrb1
            simp [addFinish, rebalance, rotateLL] at e2
            obtain ⟨rfl, rfl⟩ := e2
            refine ⟨by simp only [height] at ih1 hrb hx ⊢; simp; omega, by simp, ?_⟩
            intro c hc _ _
            exact ⟨⟨_, _, _, rfl⟩, by simp only [height] at ih1 hrb hx ⊢; omega⟩
          · have hrbm : rb = -1 := by omega
            subst hrbm
            cases rl with
            | null => simp only [height] at hrb; omega
            | mk gl gv gr gb =>
              simp [addFinish, rebalance, rotateRL] at e2
              obtain ⟨rfl, rfl⟩ := e2
              refine ⟨by simp only [height] at ih1 hrb hx ⊢; simp; omega, by simp, ?_⟩
              intro c hc _ _
              exact ⟨⟨_, _, _, rfl⟩, by simp only [height] at ih1 hrb hx ⊢; omega⟩
        · have hb0 : b = -1 ∨ b = 0 := by omega
          rcases hb0 with rfl | rfl
          · simp [addFinish, rebalance] at e2
            obtain ⟨rfl, rfl⟩ := e2
            refine ⟨by simp only [height] at ih1 hrb hx ⊢; simp; omega, by simp, ?_⟩
            intro c hc hcc hbal
            simp only [Option.some.injEq, Prod.mk.injEq] at hcc
            obtain ⟨rfl, -⟩ := hcc
            simp [balanceOf] at hbal
          · simp [addFinish, rebalance] at e2
            obtain ⟨rfl, rfl⟩ := e2
            refine ⟨by simp only [height] at ih1 hrb hx ⊢; simp; omega, fun _ => ?_, ?_⟩
            · exact ⟨_, _, _, _, rfl, by simp only [height] at ih1 hrb hx ⊢; omega, fun _ => by simp⟩
            · intro c hc hcc hbal
              simp only [Option.some.injEq, Prod.mk.injEq] at hcc
              obtain ⟨rfl, -⟩ := hcc
              simp [balanceOf] at hbal
    · have hnv : ¬ v > x := by omega
      have hd : addDescend (Node.mk l x r b) v false =
          some (Node.mk l2 x r (if h2 then b - 1 else b), h2) := by
        simp [addDescend, hxv, e1, hnv]
      obtain ⟨ih1, ih2, -⟩ := ihl e1 el sl
      obtain ⟨l3, h3, e3, s3, -⟩ := addNode_settled l v sl
      rw [e1] at e3
      simp only [Option.some.injEq, Prod.mk.injEq] at e3
      obtain ⟨rfl, rfl⟩ := e3
      rw [hd]
      cases h2 with
      | false =>
        have n2 : b ≠ 2 := by omega
        have nm2 : b ≠ -2 := by omega
        simp [addFinish, rebalance_of_ne l2 x r n2 nm2] at e2
        obtain ⟨rfl, rfl⟩ := e2
        refine ⟨by simp only [height] at ih1 ⊢; simp at ih1 ⊢; omega, by simp, ?_⟩
        intro c hc hcc hbal
        simp only [Option.some.injEq, Prod.mk.injEq] at hcc
        obtain ⟨rfl, -⟩ := hcc
        simp [balanceOf] at hbal
        omega
      | true =>
        obtain ⟨ll, lv, lr, lb, rfl, hlb, hnz⟩ := ih2 rfl
        obtain ⟨⟨hs1, hs2⟩, sll, slr⟩ := s3
        simp only [if_true] at e2 ih1 ⊢
        by_cases hb : b = -1
        · subst hb
          have hln : l ≠ null := by
            apply ne_null_of_height_pos; omega
          have hnz2 := hnz hln
          by_cases hneg : lb ≤ 0
          · have hlb1 : lb = -1 := by omega
            subst hlb1
            simp [addFinish, rebalance, rotateRR] at e2
            obtain ⟨rfl, rfl⟩ := e2
            refine ⟨by simp only [height] at ih1 hlb hx ⊢; simp; omega, by simp, ?_⟩
            intro c hc _ _
            exact ⟨⟨_, _, _, rfl⟩, by simp only [height] at ih1 hlb hx ⊢; omega⟩
          · have hlbp : lb = 1 := by omega
            subst hlbp
            cases lr with
            | null => simp only [height] at hlb; omega
            | mk gl gv gr gb =>
              simp [addFinish, rebalance, rotateLR] at e2
              obtain ⟨rfl, rfl⟩ := e2
              refine ⟨by simp only [height] at ih1 hlb hx ⊢; simp; omega, by simp, ?_⟩
              intro c hc _ _
              exact ⟨⟨_, _, _, rfl⟩, by simp only [height] at ih1 hlb hx ⊢; omega⟩
        · have hb0 : b = 1 ∨ b = 0 := by omega
          rcases hb0 with rfl | rfl
          · simp [addFinish, rebalance] at e2
            obtain ⟨rfl, rfl⟩ := e2
            refine ⟨by simp only [height] at ih1 hlb hx ⊢; simp; omega, by simp, ?_⟩
            intro c hc hcc hbal
            simp only [Option.some.injEq, Prod.mk.injEq] at hcc
            obtain ⟨rfl, -⟩ := hcc
            simp [balanceOf] at hbal
          · simp [addFinish, rebalance] at e2
            obtain ⟨rfl, rfl⟩ := e2
            refine ⟨by simp only [height] at ih1 hlb hx ⊢; simp; omega, fun _ => ?_, ?_⟩
            · exact ⟨_, _, _, _, rfl, by simp only [height] at ih1 hlb hx ⊢; omega, fun _ => by simp⟩
            · intro c hc hcc hbal
              simp only [Option.some.injEq, Prod.mk.injEq] at hcc
              obtain ⟨rfl, -⟩ := hcc
              simp [balanceOf] at hbal
    · have n2 : b ≠ 2 := by omega
      have nm2 : b ≠ -2 := by omega
      simp [addFinish, rebalance_of_ne l x r n2 nm2] at e2
      obtain ⟨rfl, rfl⟩ := e2
      refine ⟨by simp, by simp, ?_⟩
      intro c hc hcc hbal
      subst hxv
      simp [addDescend] at hcc
      obtain ⟨rfl, -⟩ := hcc
      simp [balanceOf] at hbal
      omega

/-- The two subtrees of a valid AVL tree are valid AVL trees. -/
theorem validAVL_subtrees {l r : Node} {x b : Int} (h : validAVL (Node.mk l x r b)) :
    validAVL l ∧ validAVL r := by
  obtain ⟨⟨-, -, bl, br⟩, ⟨-, el, er⟩, ⟨-, sl, sr⟩⟩ := h
  exact ⟨⟨bl, el, sl⟩, ⟨br, er, sr⟩⟩

/-- C18.  The height-increased signal of insertion is exact.  For every valid
AVL tree `t` and every integer `v`, `addNode` started with `heightIncreased =
false` completes; it ends with `heightIncreased = true` exactly when the result
is one level higher than `t`, and otherwise the result has the height of `t`.
In particular, whenever the node that `addNode` hands to `rebalance` has
balance `+2` or `-2`, so that a rotation is made, the new subtree root has
balance 0 and the subtree has the height it had before the insertion.  (Every
subtree of a valid AVL tree is a valid AVL tree, so this covers the call of
`rebalance` at every level of the recursion.) -/
theorem heightIncreased_exact (t : Node) (v : Int) (hv : validAVL t) :
    ∃ t2 h, addNode t v false = some (t2, h) ∧
      (h = true ↔ height t2 = height t + 1) ∧
      (h = false → height t2 = height t) ∧
      (∀ c hc, addDescend t v false = some (c, hc) →
        (balanceOf c = some 2 ∨ balanceOf c = some (-2)) →
        h = false ∧ (∃ l x r, t2 = Node.mk l x r 0) ∧ height t2 = height t) := by
  obtain ⟨-, he, hs⟩ := hv
  obtain ⟨t2, h, e, -, -⟩ := addNode_settled t v hs
  obtain ⟨h1, -, h3⟩ := addNode_height e he hs
  refine ⟨t2, h, e, ?_, ?_, ?_⟩
  · cases h <;> simp at h1 ⊢ <;> omega
  · intro hf
    subst hf
    simpa using h1
  · intro c hc hd hbal
    obtain ⟨hroot, hh⟩ := h3 c hc hd hbal
    refine ⟨?_, hroot, hh⟩
    cases h with
    | false => rfl
    | true => simp at h1; omega

/-- An instance of C18: adding 3 to the valid tree with root 1 and right leaf
2 makes `addNode` hand a node of balance `+2` to `rebalance`; the flag ends
`false` and the height stays 2. -/
theorem heightIncreased_exact_witness :
    validAVL (Node.mk null 1 (Node.mk null 2 null 0) 1) ∧
    addDescend (Node.mk null 1 (Node.mk null 2 null 0) 1) 3 false =
      some (Node.mk null 1 (Node.mk null 2 (Node.mk null 3 null 0) 1) 2, true) ∧
    ∃ t2 h, addNode (Node.mk null 1 (Node.mk null 2 null 0) 1) 3 false = some (t2, h) ∧
      (h = true ↔ height t2 = height (Node.mk null 1 (Node.mk null 2 null 0) 1) + 1) ∧
      (h = false → height t2 = height (Node.mk null 1 (Node.mk null 2 null 0) 1)) ∧
      (∀ c hc, addDescend (Node.mk null 1 (Node.mk null 2 null 0) 1) 3 false = some (c, hc) →
        (balanceOf c = some 2 ∨ balanceOf c = some (-2)) →
        h = false ∧ (∃ l x r, t2 = Node.mk l x r 0) ∧
          height t2 = height (Node.mk null 1 (Node.mk null 2 null 0) 1)) :=
  ⟨by decide, by decide,
    heightIncreased_exact (Node.mk null 1 (Node.mk null 2 null 0) 1) 3 (by decide)⟩

/-- C19 (code defect).  The claim: `removeNode` reports `heightDecreased =
true` exactly when the result is one level lower, and `false` exactly when the
height is unchanged.  On the valid AVL tree built by adding 3, 2, 4, 1 (root 3
with balance `-1`, left child 2 over the leaf 1, right leaf 4), removing 4
lowers the root's balance to `-2`; the flag is set to `false` at that point,
`rotateRR` then produces the tree with root 2 and leaves 1 and 3, of height 2
where the tree had height 3, and the flag stays `false`. -/
theorem heightDecreased_missed_after_rotation :
    addAll empty [3, 2, 4, 1] =
      some ⟨Node.mk (Node.mk (Node.mk null 1 null 0) 2 null (-1)) 3 (Node.mk null 4 null 0) (-1)⟩ ∧
    validAVL (Node.mk (Node.mk (Node.mk null 1 null 0) 2 null (-1)) 3 (Node.mk null 4 null 0) (-1)) ∧
    removeNode (Node.mk (Node.mk (Node.mk null 1 null 0) 2 null (-1)) 3
        (Node.mk null 4 null 0) (-1)) 4 false =
      some (Node.mk (Node.mk null 1 null 0) 2 (Node.mk null 3 null 0) 0, false) ∧
    height (Node.mk (Node.mk (Node.mk null 1 null 0) 2 null (-1)) 3 (Node.mk null 4 null 0) (-1))
      = 3 ∧
    height (Node.mk (Node.mk null 1 null 0) 2 (Node.mk null 3 null 0) 0) = 2 := by
  refine ⟨by decide, by decide, by decide, by decide, by decide⟩

/-- The dispatcher fails to complete exactly when it reads through a null
link: at balance `+2` with no right child, or with a right child of negative
balance that has no left child, and in the mirrored situations at `-2`. -/
theorem rebalance_eq_none_iff (l : Node) (x : Int) (r : Node) (b : Int) :
    rebalance (Node.mk l x r b) = none ↔
      (b = 2 ∧ (r = null ∨ ∃ rv rr rb, r = Node.mk null rv rr rb ∧ rb < 0)) ∨
      (b = -2 ∧ (l = null ∨ ∃ ll lv lb, l = Node.mk ll lv null lb ∧ 0 < lb)) := by
  by_cases h2 : b = 2
  · subst h2
    cases r with
    | null => simp [rebalance]
    | mk rl rv rr rb =>
      by_cases hrb : rb ≥ 0
      · constructor
        · intro h
          simp [rebalance, hrb, rotateLL] at h
        · rintro (⟨-, h | ⟨rv2, rr2, rb2, he, hlt⟩⟩ | ⟨h, -⟩)
          · cases h
          · injection he with _ _ _ e4
            omega
          · omega
      · have hneg : rb < 0 := by omega
        cases rl with
        | null =>
          constructor
          · intro _
            exact Or.inl ⟨rfl, Or.inr ⟨rv, rr, rb, rfl, hneg⟩⟩
          · intro _
            simp [rebalance, hrb, rotateRL]
        | mk gl gv gr gb =>
          constructor
          · intro h
            simp [rebalance, hrb, rotateRL] at h
          · rintro (⟨-, h | ⟨rv2, rr2, rb2, he, hlt⟩⟩ | ⟨h, -⟩)
            · cases h
            · injection he with e1 _ _ _
              cases e1
            · omega
  · by_cases hm2 : b = -2
    · subst hm2
      cases l with
      | null => simp [rebalance]
      | mk ll lv lr lb =>
        by_cases hlb : lb ≤ 0
        · constructor
          · intro h
            simp [rebalance, hlb, rotateRR] at h
          · rintro (⟨h, -⟩ | ⟨-, h | ⟨ll2, lv2, lb2, he, hlt⟩⟩)
            · omega
            · cases h
            · injection he with _ _ _ e4
              omega
        · have hpos : 0 < lb := by omega
          cases lr with
          | null =>
            constructor
            · intro _
              exact Or.inr ⟨rfl, Or.inr ⟨ll, lv, lb, rfl, hpos⟩⟩
            · intro _
              simp [rebalance, hlb, rotateLR]
          | mk gl gv gr gb =>
            constructor
            · intro h
              simp [rebalance, hlb, rotateLR] at h
            · rintro (⟨h, -⟩ | ⟨-, h | ⟨ll2, lv2, lb2, he, hlt⟩⟩)
              · omega
              · cases h
              · injection he with _ _ e3 _
                cases e3
    · simp [rebalance, h2, hm2]

/-- C20.  No absent child is read on valid input: for every valid AVL tree and
every integer `v`, `add` and `remove` run to completion, that is, every call of
`rebalance` that sees balance `+2` (`-2`) finds the right (left) child and
every call of `rotateRL`/`rotateLR` finds the grandchild. -/
theorem valid_input_reads_no_null (t : Tree) (v : Int) (hv : validAVL t.root) :
    (∃ t2, t.add v = some t2) ∧ (∃ t2, t.remove v = some t2) := by
  obtain ⟨-, he, hs⟩ := hv
  constructor
  · obtain ⟨r, h, e, -, -⟩ := addNode_settled t.root v hs
    exact ⟨⟨r⟩, by simp only [add, e]⟩
  · obtain ⟨r, h, e⟩ := removeNode_total t.root v false he hs
    exact ⟨⟨r⟩, by simp only [remove, e]⟩

/-- An instance of C20: on the valid tree with root 2 over the leaf 1 and the
right child 3 over the leaf 4, `add 5` and `remove 1` both rotate and both
complete. -/
theorem valid_input_reads_no_null_witness :
    validAVL (Node.mk (Node.mk null 1 null 0) 2 (Node.mk null 3 (Node.mk null 4 null 0) 1) 1) ∧
    (∃ t2, add ⟨Node.mk (Node.mk null 1 null 0) 2
        (Node.mk null 3 (Node.mk null 4 null 0) 1) 1⟩ 5 = some t2) ∧
    (∃ t2, remove ⟨Node.mk (Node.mk null 1 null 0) 2
        (Node.mk null 3 (Node.mk null 4 null 0) 1) 1⟩ 1 = some t2) :=
  ⟨by decide,
    (valid_input_reads_no_null
      ⟨Node.mk (Node.mk null 1 null 0) 2 (Node.mk null 3 (Node.mk null 4 null 0) 1) 1⟩ 5
      (by decide)).1,
    (valid_input_reads_no_null
      ⟨Node.mk (Node.mk null 1 null 0) 2 (Node.mk null 3 (Node.mk null 4 null 0) 1) 1⟩ 1
      (by decide)).2⟩

end Tree

end AVLOptimized

namespace SingleLinkedList

namespace List

/-! ## Chains on the free store -/

theorem lt_length_of_getElem? {heap : Heap} {a : Nat} {n : Node} (h : heap[a]? = some n) :
    a < heap.length := by
  obtain ⟨hlt, -⟩ := List.getElem?_eq_some.mp h
  exact hlt

theorem chain_length {heap : Heap} :
    ∀ {addrs : Addrs} {vals : Values} {start : Option Nat},
      IsChain heap start addrs vals → addrs.length = vals.length
  | [], [], _, _ => rfl
  | [], _ :: _, _, h => by simp [IsChain] at h
  | _ :: _, [], _, h => by simp [IsChain] at h
  | _ :: as, _ :: vs, _, h => by
    obtain ⟨-, nxt, -, hc⟩ := h
    simp [chain_length hc]

theorem chain_bound {heap : Heap} :
    ∀ {addrs : Addrs} {vals : Values} {start : Option Nat},
      IsChain heap start addrs vals → ∀ a ∈ addrs, a < heap.length
  | [], _, _, _ => by simp
  | _ :: _, [], _, h => by simp [IsChain] at h
  | b :: as, _ :: vs, _, h => by
    obtain ⟨-, nxt, hb, hc⟩ := h
    intro a ha
    rcases List.mem_cons.mp ha with rfl | ha
    · exact lt_length_of_getElem? hb
    · exact chain_bound hc a ha

/-- Allocation leaves a chain in place. -/
theorem chain_append {heap : Heap} (extra : Heap) :
    ∀ {addrs : Addrs} {vals : Values} {start : Option Nat},
      IsChain heap start addrs vals → IsChain (heap ++ extra) start addrs vals
  | [], [], _, h => h
  | [], _ :: _, _, h => by simp [IsChain] at h
  | _ :: _, [], _, h => by simp [IsChain] at h
  | b :: as, v :: vs, _, h => by
    obtain ⟨hs, nxt, hb, hc⟩ := h
    refine ⟨hs, nxt, ?_, chain_append extra hc⟩
    rw [List.getElem?_append_left (lt_length_of_getElem? hb)]
    exact hb

/-- A store to a node outside a chain leaves the chain in place. -/
theorem chain_set {heap : Heap} (p : Nat) (n : Node) :
    ∀ {addrs : Addrs} {vals : Values} {start : Option Nat},
      IsChain heap start addrs vals → p ∉ addrs → IsChain (heap.set p n) start addrs vals
  | [], [], _, h, _ => h
  | [], _ :: _, _, h, _ => by simp [IsChain] at h
  | _ :: _, [], _, h, _ => by simp [IsChain] at h
  | b :: as, v :: vs, _, h, hp => by
    obtain ⟨hs, nxt, hb, hc⟩ := h
    simp only [List.mem_cons, not_or] at hp
    refine ⟨hs, nxt, ?_, chain_set p n hc hp.2⟩
    rw [List.getElem?_set_ne hp.1]
    exact hb

theorem setNext_some {heap heap2 : Heap} {p : Nat} {q : Option Nat}
    (h : setNext heap p q = some heap2) :
    ∃ n, heap[p]? = some n ∧ heap2 = heap.set p ⟨n.value, q⟩ := by
  unfold setNext at h
  cases hp : heap[p]? with
  | none => simp [hp] at h
  | some n =>
    simp only [hp, Option.some.injEq] at h
    exact ⟨n, rfl, h.symm⟩

/-- Linking a fresh node behind the last node of a chain extends the chain by
that node. -/
theorem chain_snoc {heap : Heap} {n : Nat} {value : Int}
    (hn : heap[n]? = some ⟨value, none⟩) :
    ∀ {addrs : Addrs} {vals : Values} {start : Option Nat} {t : Nat},
      IsChain heap start addrs vals → addrs.getLast? = some t → addrs.Nodup → n ∉ addrs →
      ∃ heap2, setNext heap t (some n) = some heap2 ∧
        IsChain heap2 start (addrs ++ [n]) (vals ++ [value])
  | [], _, _, _, _, hl, _, _ => by simp at hl
  | _ :: _, [], _, _, h, _, _, _ => by simp [IsChain] at h
  | [a], v :: vs, start, t, h, hl, _, hnot => by
    obtain ⟨hs, nxt, ha, hc⟩ := h
    cases vs with
    | cons _ _ => simp [IsChain] at hc
    | nil =>
      simp only [IsChain] at hc
      subst hc
      simp only [List.getLast?_singleton, Option.some.injEq] at hl
      subst hl
      have hne : a ≠ n := by
        intro e; exact hnot (by simp [e])
      refine ⟨heap.set a ⟨v, some n⟩, by simp [setNext, ha], hs, some n, ?_, rfl, none, ?_, rfl⟩
      · rw [List.getElem?_set_self (lt_length_of_getElem? ha)]
      · rw [List.getElem?_set_ne hne]
        exact hn
  | a :: a2 :: rest, v :: vs, start, t, h, hl, hnd, hnot => by
    obtain ⟨hs, nxt, ha, hc⟩ := h
    rw [List.getLast?_cons_cons] at hl
    have hnd2 : (a2 :: rest).Nodup := (List.nodup_cons.mp hnd).2
    have hat : a ∉ a2 :: rest := (List.nodup_cons.mp hnd).1
    have hnot2 : n ∉ a2 :: rest := fun hm => hnot (List.mem_cons_of_mem _ hm)
    obtain ⟨heap2, e2, hc2⟩ := chain_snoc hn hc hl hnd2 hnot2
    obtain ⟨nd, -, rfl⟩ := setNext_some e2
    have htm : t ∈ a2 :: rest := List.mem_of_getLast?_eq_some hl
    have hne : t ≠ a := by
      intro e; subst e; exact hat htm
    refine ⟨_, e2, hs, nxt, ?_, hc2⟩
    rw [List.getElem?_set_ne hne]
    exact ha

/-- The loop of `printForward` on a chain writes the values of the chain and
counts them, given enough iterations. -/
theorem forLoop_chain {heap : Heap} :
    ∀ {addrs : Addrs} {vals : Values} {start : Option Nat} (fuel : Nat) (out : Values)
      (count : Nat), IsChain heap start addrs vals → addrs.length ≤ fuel →
      forLoop heap fuel start out count = some (out ++ vals, count + vals.length)
  | [], [], _, fuel, out, count, h, _ => by
    simp only [IsChain] at h
    subst h
    cases fuel <;> simp [forLoop]
  | [], _ :: _, _, _, _, _, h, _ => by simp [IsChain] at h
  | _ :: _, [], _, _, _, _, h, _ => by simp [IsChain] at h
  | a :: as, v :: vs, _, fuel, out, count, h, hf => by
    obtain ⟨rfl, nxt, ha, hc⟩ := h
    cases fuel with
    | zero => simp at hf
    | succ f =>
      simp only [forLoop, ha]
      rw [forLoop_chain f _ _ hc (by simpa using hf)]
      simp [Nat.add_assoc, Nat.add_comm 1]

/-- The loop of `printForward` on a chain visits the nodes of the chain in
order, given enough iterations. -/
theorem visited_chain {heap : Heap} :
    ∀ {addrs : Addrs} {vals : Values} {start : Option Nat} (fuel : Nat),
      IsChain heap start addrs vals → addrs.length ≤ fuel →
      visited heap fuel start = some addrs
  | [], [], _, fuel, h, _ => by
    simp only [IsChain] at h
    subst h
    cases fuel <;> simp [visited]
  | [], _ :: _, _, _, h, _ => by simp [IsChain] at h
  | _ :: _, [], _, _, h, _ => by simp [IsChain] at h
  | a :: as, v :: vs, _, fuel, h, hf => by
    obtain ⟨rfl, nxt, ha, hc⟩ := h
    cases fuel with
    | zero => simp at hf
    | succ f =>
      simp only [visited, ha]
      rw [visited_chain f hc (by simpa using hf)]

/-! ## The calls keep the chain -/

theorem addToBack_chain {heap : Heap} {l : List} {addrs : Addrs} {vals : Values} (v : Int)
    (hc : IsChain heap l.head addrs vals) (ht : l.tail = addrs.getLast?)
    (hnd : addrs.Nodup) :
    ∃ heap2 l2, addToBack heap l v = some (heap2, l2, true) ∧
      IsChain heap2 l2.head (addrs ++ [heap.length]) (vals ++ [v]) ∧
      l2.tail = (addrs ++ [heap.length]).getLast? ∧ (addrs ++ [heap.length]).Nodup := by
  have hfresh : heap.length ∉ addrs := fun hm => lt_irrefl _ (chain_bound hc _ hm)
  have hnd2 : (addrs ++ [heap.length]).Nodup := by
    rw [List.nodup_append]
    refine ⟨hnd, List.nodup_singleton _, ?_⟩
    intro a ha hb
    rw [List.mem_singleton] at hb
    subst hb
    exact hfresh ha
  have hn : (heap ++ [(⟨v, none⟩ : Node)])[heap.length]? = some ⟨v, none⟩ :=
    List.getElem?_concat_length heap _
  cases addrs with
  | nil =>
    cases vals with
    | cons _ _ => simp [IsChain] at hc
    | nil =>
      simp only [IsChain] at hc
      refine ⟨heap ++ [⟨v, none⟩], ⟨some heap.length, some heap.length⟩, ?_, ?_, ?_, hnd2⟩
      · simp [addToBack, allocate, hc]
      · exact ⟨rfl, none, hn, rfl⟩
      · simp
  | cons a as =>
    cases vals with
    | nil => simp [IsChain] at hc
    | cons v0 vs =>
      have hh : l.head = some a := hc.1
      obtain ⟨t, hlast⟩ : ∃ t, (a :: as).getLast? = some t := by
        rw [List.getLast?_cons]; exact ⟨_, rfl⟩
      have hc1 : IsChain (heap ++ [(⟨v, none⟩ : Node)]) l.head (a :: as) (v0 :: vs) :=
        chain_append _ hc
      obtain ⟨heap2, e2, hc2⟩ := chain_snoc hn hc1 hlast hnd hfresh
      refine ⟨heap2, ⟨some a, some heap.length⟩, ?_, ?_, ?_, hnd2⟩
      · simp [addToBack, allocate, hh, ht, hlast, e2]
      · rw [hh] at hc2
        exact hc2
      · exact (List.getLast?_concat (a :: as)).symm

theorem addToFront_chain {heap : Heap} {l : List} {addrs : Addrs} {vals : Values} (v : Int)
    (hc : IsChain heap l.head addrs vals) (ht : l.tail = addrs.getLast?)
    (hnd : addrs.Nodup) :
    ∃ heap2 l2, addToFront heap l v = some (heap2, l2, true) ∧
      IsChain heap2 l2.head (heap.length :: addrs) (v :: vals) ∧
      l2.tail = (heap.length :: addrs).getLast? ∧ (heap.length :: addrs).Nodup := by
  have hfresh : heap.length ∉ addrs := fun hm => lt_irrefl _ (chain_bound hc _ hm)
  have hnd2 : (heap.length :: addrs).Nodup := List.nodup_cons.mpr ⟨hfresh, hnd⟩
  have hn : (heap ++ [(⟨v, none⟩ : Node)])[heap.length]? = some ⟨v, none⟩ :=
    List.getElem?_concat_length heap _
  cases addrs with
  | nil =>
    cases vals with
    | cons _ _ => simp [IsChain] at hc
    | nil =>
      simp only [IsChain] at hc
      refine ⟨heap ++ [⟨v, none⟩], ⟨some heap.length, some heap.length⟩, ?_, ?_, ?_, hnd2⟩
      · simp [addToFront, allocate, hc]
      · exact ⟨rfl, none, hn, rfl⟩
      · simp
  | cons a as =>
    cases vals with
    | nil => simp [IsChain] at hc
    | cons v0 vs =>
      have hh : l.head = some a := hc.1
      have hc1 : IsChain (heap ++ [(⟨v, none⟩ : Node)]) l.head (a :: as) (v0 :: vs) :=
        chain_append _ hc
      have hc2 := chain_set heap.length (⟨v, some a⟩ : Node) hc1 hfresh
      refine ⟨(heap ++ [(⟨v, none⟩ : Node)]).set heap.length ⟨v, some a⟩,
        ⟨some heap.length, l.tail⟩, ?_, ?_, ?_, hnd2⟩
      · simp [addToFront, allocate, hh, setNext, hn]
      · refine ⟨rfl, some a, ?_, ?_⟩
        · rw [List.getElem?_set_self (by simp)]
        · rw [hh] at hc2
          exact hc2
      · rw [ht, List.getLast?_cons_cons]

/-- A sequence of calls on a chain completes, every call returns `true`, and
the list is again a chain, holding the values of the sequence model, with
`tail` at its last node. -/
theorem run_chain :
    ∀ (cs : Calls) (heap : Heap) (l : List) (addrs : Addrs) (vals : Values),
      IsChain heap l.head addrs vals → l.tail = addrs.getLast? → addrs.Nodup →
      ∃ heap2 l2 flags addrs2, run heap l cs = some (heap2, l2, flags) ∧
        flags.length = cs.length ∧ (∀ f ∈ flags, f = true) ∧
        IsChain heap2 l2.head addrs2 (model vals cs) ∧ l2.tail = addrs2.getLast?
  | [], heap, l, addrs, vals, hc, ht, _ =>
    ⟨heap, l, [], addrs, rfl, rfl, by simp, hc, ht⟩
  | Call.addToBack v :: cs, heap, l, addrs, vals, hc, ht, hnd => by
    obtain ⟨heap1, l1, e1, hc1, ht1, hnd1⟩ := addToBack_chain v hc ht hnd
    obtain ⟨heap2, l2, flags, addrs2, e2, hlen, hall, hc2, ht2⟩ :=
      run_chain cs heap1 l1 _ _ hc1 ht1 hnd1
    refine ⟨heap2, l2, true :: flags, addrs2, ?_, by simp [hlen], ?_, hc2, ht2⟩
    · simp [run, call, e1, e2]
    · intro f hf
      rcases List.mem_cons.mp hf with rfl | hf
      · rfl
      · exact hall f hf
  | Call.addToFront v :: cs, heap, l, addrs, vals, hc, ht, hnd => by
    obtain ⟨heap1, l1, e1, hc1, ht1, hnd1⟩ := addToFront_chain v hc ht hnd
    obtain ⟨heap2, l2, flags, addrs2, e2, hlen, hall, hc2, ht2⟩ :=
      run_chain cs heap1 l1 _ _ hc1 ht1 hnd1
    refine ⟨heap2, l2, true :: flags, addrs2, ?_, by simp [hlen], ?_, hc2, ht2⟩
    · simp [run, call, e1, e2]
    · intro f hf
      rcases List.mem_cons.mp hf with rfl | hf
      · rfl
      · exact hall f hf

/-- C12.  Singly linked list ordering: every finite sequence of `addToFront`
and `addToBack` calls on an initially empty `List` completes, every call
returns `true`, `printForward` writes exactly the sequence obtained by
prepending for each `addToFront` and appending for each `addToBack` and returns
its length, and `tail` is the address of the last node that `printForward`
visits (null exactly when no node is visited), whichever call added the first
element. -/
theorem calls_match_model (cs : Calls) :
    ∃ heap l flags, run [] init cs = some (heap, l, flags) ∧
      flags.length = cs.length ∧ (∀ f ∈ flags, f = true) ∧
      (∀ fuel, (model [] cs).length ≤ fuel →
        printForward heap l fuel = some (model [] cs, (model [] cs).length)) ∧
      ∃ addrs, (∀ fuel, (model [] cs).length ≤ fuel → visited heap fuel l.head = some addrs) ∧
        l.tail = addrs.getLast? := by
  obtain ⟨heap, l, flags, addrs, e, hlen, hall, hc, ht⟩ :=
    run_chain cs [] init [] [] rfl rfl List.nodup_nil
  have hl := chain_length hc
  refine ⟨heap, l, flags, e, hlen, hall, ?_, addrs, ?_, ht⟩
  · intro fuel hf
    have := forLoop_chain fuel [] 0 hc (by omega)
    simpa [printForward] using this
  · intro fuel hf
    exact visited_chain fuel hc (by omega)

/-- An evaluated run: `addToFront 2`, `addToBack 3`, `addToFront 1` gives a list
that prints 1, 2, 3, with `tail` at the node holding 3. -/
theorem calls_example :
    run [] init [Call.addToFront 2, Call.addToBack 3, Call.addToFront 1] =
      some ([⟨2, some 1⟩, ⟨3, none⟩, ⟨1, some 0⟩], ⟨some 2, some 1⟩, [true, true, true]) ∧
    printForward [⟨2, some 1⟩, ⟨3, none⟩, ⟨1, some 0⟩] ⟨some 2, some 1⟩ 3 =
      some ([1, 2, 3], 3) ∧
    visited [⟨2, some 1⟩, ⟨3, none⟩, ⟨1, some 0⟩] 3 (some 2) = some [2, 0, 1] := by
  refine ⟨by decide, by decide, by decide⟩

end List

end SingleLinkedList
